import Mathlib

/-!
Verification of the CumulusCI metadata tree facade
(`cumulusci/util/xml/metadata_tree.py`).

The Python module wraps `lxml.etree` elements in a `MetadataElement` class
offering attribute-style child access, tag-scoped integer indexing,
ordered insertion (`append`, `insert`, `insertBefore`, `insertAfter`),
removal, `find`/`findall` and serialization, under a single-namespace
convention.

We shallowly embed the underlying XML element as the inductive `XElem`
(tag is the fully qualified lxml tag string such as "{uri}local";
`nsvals` is the list of namespace URIs of `element.nsmap.values()` in
iteration order; `text` is the element's own text, `none` meaning the
Python `None`).  Mutating methods of the Python class are embedded as
pure functions that return the updated element together with the method's
return value; Python exceptions become `Except` errors classified by the
error kinds of the specification.
-/

/-- An XML element as observed by the Python code through lxml:
qualified tag, the values of the element's namespace map, its own text,
and the ordered list of direct child elements. -/
inductive XElem : Type where
  | mk (nsvals : List String) (tag : String) (text : Option String)
       (children : List XElem)

mutual

def XElem.decEq : (a b : XElem) → Decidable (a = b)
  | .mk n1 t1 x1 c1, .mk n2 t2 x2 c2 =>
    if hn : n1 = n2 then
      if ht : t1 = t2 then
        if hx : x1 = x2 then
          match XElem.decEqList c1 c2 with
          | isTrue hc => isTrue (by rw [hn, ht, hx, hc])
          | isFalse hc => isFalse (fun he => by cases he; exact hc rfl)
        else isFalse (fun he => by cases he; exact hx rfl)
      else isFalse (fun he => by cases he; exact ht rfl)
    else isFalse (fun he => by cases he; exact hn rfl)

def XElem.decEqList : (a b : List XElem) → Decidable (a = b)
  | [], [] => isTrue rfl
  | [], _ :: _ => isFalse (fun h => by cases h)
  | _ :: _, [] => isFalse (fun h => by cases h)
  | a :: as, b :: bs =>
    match XElem.decEq a b with
    | isFalse h => isFalse (fun he => by cases he; exact h rfl)
    | isTrue h1 =>
      match XElem.decEqList as bs with
      | isFalse h => isFalse (fun he => by cases he; exact h rfl)
      | isTrue h2 => isTrue (by rw [h1, h2])

end

instance : DecidableEq XElem := XElem.decEq

def XElem.nsvals : XElem → List String
  | .mk n _ _ _ => n

def XElem.tag : XElem → String
  | .mk _ t _ _ => t

def XElem.text : XElem → Option String
  | .mk _ _ x _ => x

def XElem.children : XElem → List XElem
  | .mk _ _ _ c => c

/-- Error kinds of the specification (§7), plus the raw Python failures
they classify:
* `ParseError` covers the constructor assertion
  `assert len(element.nsmap) == 1, "Only one namespace allowed"`;
* `ChildNotFound` covers the `AttributeError` raised by `_get_child`;
* `NotAChild` covers the `ValueError` raised by `lxml`'s
  `index`/`remove` when the referenced element is not a direct child;
* `IndexError` covers Python list indexing out of range
  (including `tag.split("}")[1]` on a namespace-free tag);
* `NoneTypeError` covers the `AttributeError` raised by
  `self._parent.findall(...)` when `_parent` is `None`. -/
inductive MetaError : Type where
  | ParseError (msg : String)
  | ChildNotFound (childname : String) (parentTag : String)
  | NotAChild
  | IndexError
  | NoneTypeError
deriving DecidableEq

/-- `"{%s}%s" % (self._ns, tag)`: the namespace-qualified tag string. -/
def addNamespace (ns tag : String) : String :=
  "\x7b" ++ ns ++ "\x7d" ++ tag

/-- Split a character list at every occurrence of the character `c`,
with the semantics of Python's `str.split` with a one-character
separator: `"a}b" ↦ ["a", "b"]`, `"}" ↦ ["", ""]`, `"" ↦ [""]`. -/
def splitOnChar (c : Char) : List Char → List (List Char)
  | [] => [[]]
  | a :: as =>
    match splitOnChar c as with
    | [] => [[]]
    | g :: gs => if a = c then [] :: g :: gs else (a :: g) :: gs

/-- Python's `tag.split("}")` (the separator is the single character
`}`, code point 125). -/
def pySplitBrace (s : String) : List String :=
  (splitOnChar (Char.ofNat 125) s.toList).map String.mk

/-- The wrapper object: `__slots__ = ["_element", "_parent", "_ns", "tag"]`. -/
structure MetadataElement : Type where
  element : XElem
  parent : Option XElem
  ns : String
  tag : String
deriving DecidableEq

/-- `MetadataElement.__init__(element, parent=None)`: asserts that the
element's namespace map has exactly one entry, records the (sole)
namespace URI, and strips the namespace from the qualified tag via
`element.tag.split("}")[1]`. -/
def MetadataElement.init (element : XElem) (parent : Option XElem) :
    Except MetaError MetadataElement :=
  if element.nsvals.length = 1 then
    match (pySplitBrace element.tag)[1]? with
    | some localName =>
        .ok ⟨element, parent, element.nsvals.headD "", localName⟩
    | none => .error .IndexError
  else
    .error (.ParseError "Only one namespace allowed")

/-- `fromstring` / `parse`: the root element is wrapped with no parent
reference (`MetadataElement(doc.getroot())`). -/
def MetadataElement.initRoot (element : XElem) : Except MetaError MetadataElement :=
  MetadataElement.init element none

/-- `self._wrap_element(child)`: wrap a child with `self._element` as its
parent reference. -/
def MetadataElement.wrapElement (self : MetadataElement) (child : XElem) :
    Except MetaError MetadataElement :=
  MetadataElement.init child (some self.element)

/-- Replace the element's own text, keeping everything else. -/
def XElem.withText (e : XElem) (t : Option String) : XElem :=
  .mk e.nsvals e.tag t e.children

/-- Replace the element's child list, keeping everything else. -/
def XElem.withChildren (e : XElem) (cs : List XElem) : XElem :=
  .mk e.nsvals e.tag e.text cs

/-- lxml `element.findall(qualifiedTag)`: all direct children whose
qualified tag equals the given one, in document order. -/
def XElem.findallTag (e : XElem) (q : String) : List XElem :=
  e.children.filter (fun c => c.tag == q)

/-- lxml `element.find(qualifiedTag)`: the first direct child with that
qualified tag, or `None`. -/
def XElem.findTag (e : XElem) (q : String) : Option XElem :=
  e.children.find? (fun c => c.tag == q)

/-- lxml `element.index(child)`: the position of `child` among the
element's direct children.  lxml compares by object identity; in this
pure embedding, identity is rendered as structural equality, and the
position is the first structurally equal occurrence.  `none` renders the
`ValueError` lxml raises when the element is not a direct child. -/
def XElem.indexOfChild (e : XElem) (child : XElem) : Option Nat :=
  e.children.findIdx? (fun c => c == child)

/-- Python `list.insert(i, a)` for a non-negative index: inserts at
position `i`, clamping to the end when `i` exceeds the length (also the
behaviour of lxml's `element.insert`). -/
def listInsert (l : List XElem) (i : Nat) (a : XElem) : List XElem :=
  l.take i ++ a :: l.drop i

/-- The position of the last direct child whose qualified tag is `q`.
In `append`, the source computes `self._element.index(same_elements[-1])`:
the identity-based index of the identity-last matching child, which is
exactly the greatest index holding a matching tag. -/
def lastIdxWithTag (children : List XElem) (q : String) : Option Nat :=
  match children.reverse.findIdx? (fun c => c.tag == q) with
  | none => none
  | some k => some (children.length - 1 - k)

/-- Python list indexing `l[i]` with possibly negative `i`; `none`
renders `IndexError`. -/
def pyIndex (l : List XElem) (i : Int) : Option XElem :=
  if 0 ≤ i then l[i.toNat]?
  else if (-i).toNat ≤ l.length then l[l.length - (-i).toNat]?
  else none

/-- `MetadataElement._get_child(childname)`: find the first direct child
with tag `{ns}childname` and wrap it; raise
`AttributeError(f"{childname} not found in {self.tag}")` if absent.  Both
`__getattr__` and string `__getitem__` delegate here. -/
def MetadataElement.getChild (self : MetadataElement) (childname : String) :
    Except MetaError MetadataElement :=
  match self.element.findTag (addNamespace self.ns childname) with
  | none => .error (.ChildNotFound childname self.tag)
  | some c => self.wrapElement c

/-- `MetadataElement._create_child(tag, text)`: a fresh detached element
`etree.Element(self._add_namespace(tag))` with the given text, wrapped
(so its parent reference is `self._element`). -/
def MetadataElement.createChild (self : MetadataElement) (tag : String)
    (text : Option String) : Except MetaError MetadataElement :=
  self.wrapElement (.mk [self.ns] (addNamespace self.ns tag) text [])

/-- The value of the Python `text` property read: either the element's
own text, or (when the element has children) the wrapped child element
literally named "text". -/
inductive TextValue : Type where
  | str (s : Option String)
  | node (m : MetadataElement)
deriving DecidableEq

/-- The `text` property getter: `if len(self._element): return
self._get_child("text")` else `return self._element.text`. -/
def MetadataElement.textGet (self : MetadataElement) : Except MetaError TextValue :=
  if self.element.children.length ≠ 0 then
    (self.getChild "text").map TextValue.node
  else
    .ok (.str self.element.text)

/-- The `text` property setter: `self._element.text = text`. -/
def MetadataElement.textSet (self : MetadataElement) (t : Option String) :
    MetadataElement :=
  { self with element := self.element.withText t }

/-- `MetadataElement.__getitem__` with an integer key:
`children = self._parent.findall(self._element.tag);
return self._wrap_element(children[item])`.  When `_parent` is `None`,
Python raises `AttributeError` on `None.findall`. -/
def MetadataElement.getItemInt (self : MetadataElement) (i : Int) :
    Except MetaError MetadataElement :=
  match self.parent with
  | none => .error .NoneTypeError
  | some p =>
    match pyIndex (p.findallTag self.element.tag) i with
    | none => .error .IndexError
    | some c => self.wrapElement c

/-- `MetadataElement.append(tag, text)`: create a new child; if direct
children with the same qualified tag exist, insert immediately after the
last of them, else append at the end.  Returns the updated node together
with the new child (the Python method mutates `self` in place and
returns the new child). -/
def MetadataElement.append (self : MetadataElement) (tag : String)
    (text : Option String := none) :
    Except MetaError (MetadataElement × MetadataElement) := do
  let newchild ← self.createChild tag text
  let q := addNamespace self.ns tag
  let cs := self.element.children
  let cs2 :=
    match lastIdxWithTag cs q with
    | some j => listInsert cs (j + 1) newchild.element
    | none => cs ++ [newchild.element]
  pure ({ self with element := self.element.withChildren cs2 }, newchild)

/-- `MetadataElement.insert(index, tag, text)`: create a new child and
insert it at the literal child position `index`. -/
def MetadataElement.insert (self : MetadataElement) (index : Nat) (tag : String)
    (text : Option String := none) :
    Except MetaError (MetadataElement × MetadataElement) := do
  let newchild ← self.createChild tag text
  pure ({ self with
            element :=
              self.element.withChildren
                (listInsert self.element.children index newchild.element) },
        newchild)

/-- `MetadataElement.insertBefore(oldElement, tag, text)`:
`index = self._element.index(oldElement._element); return
self.insert(index, tag, text)`. -/
def MetadataElement.insertBefore (self : MetadataElement) (old : MetadataElement)
    (tag : String) (text : Option String := none) :
    Except MetaError (MetadataElement × MetadataElement) :=
  match self.element.indexOfChild old.element with
  | none => .error .NotAChild
  | some index => self.insert index tag text

/-- `MetadataElement.insertAfter(oldElement, tag, text)`:
`index = self._element.index(oldElement._element); return
self.insert(index + 1, tag, text)`. -/
def MetadataElement.insertAfter (self : MetadataElement) (old : MetadataElement)
    (tag : String) (text : Option String := none) :
    Except MetaError (MetadataElement × MetadataElement) :=
  match self.element.indexOfChild old.element with
  | none => .error .NotAChild
  | some index => self.insert (index + 1) tag text

/-- `MetadataElement.remove(metadata_element)`:
`self._element.remove(metadata_element._element)`; lxml raises
`ValueError` when the element is not a direct child. -/
def MetadataElement.remove (self : MetadataElement) (child : MetadataElement) :
    Except MetaError MetadataElement :=
  match self.element.indexOfChild child.element with
  | none => .error .NotAChild
  | some j =>
      .ok { self with
              element := self.element.withChildren (self.element.children.eraseIdx j) }

/-- `_findall`'s `matches(e)`: `if text: return e.text == text else:
return True`.  Note the Python truthiness test: an empty-string `text`
argument disables the filter exactly like `None`. -/
def matchesText (text : Option String) (e : XElem) : Bool :=
  match text with
  | none => true
  | some t => if t = "" then true else e.text == some t

/-- `MetadataElement.find(tag, text)`: the first direct child with
qualified tag `{ns}tag` passing the `matches` filter, wrapped; `None`
(not an error) when there is none. -/
def MetadataElement.find (self : MetadataElement) (tag : String)
    (text : Option String := none) : Except MetaError (Option MetadataElement) :=
  let q := addNamespace self.ns tag
  match (self.element.children.filter (fun c => c.tag == q && matchesText text c)).head? with
  | none => .ok none
  | some e => (self.wrapElement e).map some

/-- `MetadataElement.findall(tag, text)`: every direct child with
qualified tag `{ns}tag` passing the `matches` filter, wrapped, in
document order. -/
def MetadataElement.findall (self : MetadataElement) (tag : String)
    (text : Option String := none) : Except MetaError (List MetadataElement) :=
  (self.element.children.filter
      (fun c => c.tag == addNamespace self.ns tag && matchesText text c)).mapM
    self.wrapElement

/-! ## Concrete sample documents

The doctest document of the source module, used to instantiate the
theorems on concrete inputs. -/

/-- A `<members>` leaf of the doctest `Package`, namespace `"u"`. -/
def membersEl (t : String) : XElem :=
  .mk ["u"] (addNamespace "u" "members") (some t) []

/-- The `<name>StandardValueSet</name>` leaf of the doctest `Package`. -/
def nameEl : XElem :=
  .mk ["u"] (addNamespace "u" "name") (some "StandardValueSet") []

/-- The `<types>` element of the doctest `Package`. -/
def typesEl : XElem :=
  .mk ["u"] (addNamespace "u" "types") none
    [membersEl "CaseReason", membersEl "CaseStatus", membersEl "CaseType", nameEl]

/-- The `<types>` element wrapped as a root `MetadataElement`. -/
def typesNode : MetadataElement :=
  ⟨typesEl, none, "u", "types"⟩

/-- The `<version>46.0</version>` leaf of the doctest `Package`. -/
def versionEl : XElem :=
  .mk ["u"] (addNamespace "u" "version") (some "46.0") []

/-- The doctest `Package` root element. -/
def packageEl : XElem :=
  .mk ["u"] (addNamespace "u" "Package") none [typesEl, versionEl]

/-- The doctest `Package` root, wrapped with no parent. -/
def packageNode : MetadataElement :=
  ⟨packageEl, none, "u", "Package"⟩

/-- A `<members>` leaf wrapped with the `<types>` element as parent, as
produced by navigating from `typesNode`. -/
def membersNode (t : String) : MetadataElement :=
  ⟨membersEl t, some typesEl, "u", "members"⟩

/-- The `<version>` leaf wrapped with the `Package` element as parent. -/
def versionNode : MetadataElement :=
  ⟨versionEl, some packageEl, "u", "version"⟩

/-- An element whose namespace map carries two distinct namespace URIs. -/
def twoNsEl : XElem :=
  .mk ["u", "v"] (addNamespace "u" "Package") none []

/-- An element declaring no namespace at all (lxml: empty `nsmap`,
unqualified tag). -/
def noNsEl : XElem :=
  .mk [] "Package" none []

/-- An element can be wrapped by `MetadataElement.__init__` without
failing: its namespace map has one entry and its tag is
namespace-qualified (contains a closing brace). -/
def wrappable (c : XElem) : Prop :=
  c.nsvals.length = 1 ∧ Char.ofNat 125 ∈ c.tag.toList

instance (c : XElem) : Decidable (wrappable c) := by
  unfold wrappable
  infer_instance

/-! ## Serialization and re-parsing (C8)

`MetadataElement.tostring` delegates to `etree.indent(doc, space="    ")`
followed by `serialize_xml_for_salesforce` (module
`cumulusci/utils/xml/salesforce_encoding.py`, which is not part of this
excerpt), and `parse`/`fromstring` delegate to the external lxml parser.
Both collaborators are therefore modelled from the specification: a
deterministic four-space-indented serializer that re-declares the
document namespace as default on the root, and a parser for
single-default-namespace documents that treats inter-element whitespace
as insignificant. -/

/-- Whitespace, as inserted by the four-space pretty-printer: blanks and
newlines. -/
def wsChar (c : Char) : Bool := c == ' ' || c == '\n'

/-- Characters allowed in element names (alphanumeric local names). -/
def nameChar (c : Char) : Bool := c.isAlphanum

/-- Characters allowed in text content of the modelled document class:
no markup characters and no whitespace, so escaping is the identity and
whitespace normalisation cannot disturb the content. -/
def textChar (c : Char) : Bool :=
  c.isAlphanum || c == '.' || c == '-' || c == '_' || c == ':'

/-- Characters allowed in a namespace URI. -/
def nsChar (c : Char) : Bool :=
  c.isAlphanum || c == ':' || c == '/' || c == '.' || c == '-' || c == '_'

def goodName (s : String) : Bool := !(s == "") && s.toList.all nameChar

def goodText (s : String) : Bool := !(s == "") && s.toList.all textChar

def goodNs (s : String) : Bool := !(s == "") && s.toList.all nsChar

/-- The local part of a qualified lxml tag (`tag.split("}")[1]`, with
`""` as the out-of-range default). -/
def localOf (tag : String) : String := ((pySplitBrace tag)[1]?).getD ""

mutual

/-- A document element of the single-namespace convention: namespace map
`[ns]`, tag `{ns}local` with an alphanumeric local name, leaves carrying
no text or markup-free text, interior nodes carrying no own text. -/
def wfElem (ns : String) : XElem → Bool
  | .mk nsv tag txt kids =>
    nsv == [ns] &&
    tag == addNamespace ns (localOf tag) &&
    goodName (localOf tag) &&
    (match kids with
     | [] =>
       match txt with
       | none => true
       | some t => goodText t
     | _ :: _ => txt == none && wfList ns kids)

def wfList (ns : String) : List XElem → Bool
  | [] => true
  | k :: ks => wfElem ns k && wfList ns ks

end

mutual

/-- The number of parser steps needed for an element. -/
def sizeE : XElem → Nat
  | .mk _ _ _ kids => sizeL kids + 2

def sizeL : List XElem → Nat
  | [] => 0
  | k :: ks => sizeE k + sizeL ks

end

/-- Four spaces per indentation level. -/
def padChars (d : Nat) : List Char := List.replicate (4 * d) ' '

mutual

/-- Modelled from the spec: one serialized non-root element (no
namespace declaration; the namespace is declared once, as default, on
the root): its own text for a leaf, a newline-separated indented child
block for an interior node. -/
def serCore (d : Nat) : XElem → List Char
  | .mk _ tag txt kids =>
    '<' :: (localOf tag).toList ++ '>' ::
      ((match kids with
        | [] => (txt.getD "").toList
        | _ :: _ => '\n' :: serKids (d + 1) kids ++ padChars d) ++
        '<' :: '/' :: (localOf tag).toList ++ ['>'])

/-- Modelled from the spec: a block of serialized children, each on its
own indented line. -/
def serKids (d : Nat) : List XElem → List Char
  | [] => []
  | k :: ks => padChars d ++ serCore d k ++ '\n' :: serKids d ks

end

/-- Modelled from the spec: the body of one serialized element at
indentation depth `d`. -/
def serBody (d : Nat) (txt : Option String) (kids : List XElem) : List Char :=
  match kids with
  | [] => (txt.getD "").toList
  | _ :: _ => '\n' :: serKids (d + 1) kids ++ padChars d

/-- Modelled from the spec: the serializer collaborator
(`serialize_xml_for_salesforce` after `etree.indent(doc, space="    ")`)
— a deterministic four-space-indented rendering that re-declares the
original namespace as default on the root. -/
def serializeXml (ns : String) (e : XElem) : List Char :=
  '<' :: (localOf e.tag).toList ++
    ' ' :: 'x' :: 'm' :: 'l' :: 'n' :: 's' :: '=' :: '"' :: ns.toList ++
    '"' :: '>' ::
    (serBody 0 e.text e.children ++
      '<' :: '/' :: (localOf e.tag).toList ++ ['>', '\n'])

/-- Skip insignificant whitespace. -/
def skipWs (cs : List Char) : List Char := cs.dropWhile wsChar

/-- The maximal run of characters satisfying `p`, with the remainder. -/
def takeRun (p : Char → Bool) : List Char → List Char × List Char
  | [] => ([], [])
  | c :: cs =>
    if p c then
      let r := takeRun p cs
      (c :: r.1, r.2)
    else ([], c :: cs)

/-- Read one nonempty alphanumeric name. -/
def parseNameTok (cs : List Char) : Option (String × List Char) :=
  match takeRun nameChar cs with
  | ([], _) => none
  | (tk, rest) => some (String.mk tk, rest)

/-- Read one nonempty run of text content. -/
def parseTextTok (cs : List Char) : Option (String × List Char) :=
  match takeRun textChar cs with
  | ([], _) => none
  | (tk, rest) => some (String.mk tk, rest)

/-- Read the closing tag `</name>`. -/
def parseClose (name : String) (cs : List Char) : Option (List Char) :=
  match cs with
  | '<' :: '/' :: cs2 =>
    match parseNameTok cs2 with
    | some (n2, cs3) =>
      if n2 = name then
        match cs3 with
        | '>' :: r => some r
        | _ => none
      else none
    | none => none
  | _ => none

mutual

/-- Modelled from the spec: the external parser (lxml), restricted to
the single-default-namespace document class — one element, fuelled. -/
def parseElem (ns : String) : Nat → List Char → Option (XElem × List Char)
  | 0, _ => none
  | fuel + 1, cs =>
    match skipWs cs with
    | [] => none
    | c :: cs1 =>
      if c = '<' then
        match parseNameTok cs1 with
        | some (name, c2 :: cs2) =>
          if c2 = '>' then
            match parseAfterOpen ns name fuel cs2 with
            | some (txt, kids, rest) =>
              some (⟨[ns], addNamespace ns name, txt, kids⟩, rest)
            | none => none
          else none
        | _ => none
      else none
termination_by fuel cs => (fuel, 2)

/-- Modelled from the spec: element content after the opening tag —
an immediate closing tag (empty leaf), a whitespace-led child block, or
text content, each followed by the matching closing tag. -/
def parseAfterOpen (ns name : String) :
    Nat → List Char → Option (Option String × List XElem × List Char)
  | fuel, cs =>
    match cs with
    | [] => none
    | c :: cs2 =>
      if c = '<' then
        match cs2 with
        | [] => none
        | c2 :: cs3 =>
          if c2 = '/' then
            match parseClose name (c :: c2 :: cs3) with
            | some r => some (none, [], r)
            | none => none
          else none
      else if wsChar c then
        match parseKids ns fuel (c :: cs2) with
        | some (kids, r) =>
          match parseClose name r with
          | some r2 => some (none, kids, r2)
          | none => none
        | none => none
      else
        match parseTextTok (c :: cs2) with
        | some (t, r) =>
          match parseClose name r with
          | some r2 => some (some t, [], r2)
          | none => none
        | none => none
termination_by fuel cs => (fuel, 1)

/-- Modelled from the spec: a whitespace-separated sequence of child
elements, stopping (without consuming) at the closing tag. -/
def parseKids (ns : String) : Nat → List Char → Option (List XElem × List Char)
  | 0, _ => none
  | fuel + 1, cs =>
    match skipWs cs with
    | [] => none
    | c :: cs1 =>
      if c = '<' then
        match cs1 with
        | [] => none
        | c2 :: cs2 =>
          if c2 = '/' then some ([], c :: c2 :: cs2)
          else
            match parseElem ns fuel (c :: c2 :: cs2) with
            | some (e, r) =>
              match parseKids ns fuel r with
              | some (es, r2) => some (e :: es, r2)
              | none => none
            | none => none
      else none
termination_by fuel cs => (fuel, 0)

end

/-- Modelled from the spec: parse a whole document — root tag with a
default namespace declaration, content, closing tag, nothing but
whitespace after. -/
def parseXmlRoot (fuel : Nat) (cs : List Char) : Option XElem :=
  match skipWs cs with
  | '<' :: cs1 =>
    match parseNameTok cs1 with
    | some (name, ' ' :: 'x' :: 'm' :: 'l' :: 'n' :: 's' :: '=' :: '"' :: cs3) =>
      match takeRun nsChar cs3 with
      | ([], _) => none
      | (nstk, cs4) =>
        match cs4 with
        | '"' :: '>' :: cs5 =>
          match parseAfterOpen (String.mk nstk) name fuel cs5 with
          | some (txt, kids, rest) =>
            if (skipWs rest).isEmpty then
              some ⟨[String.mk nstk], addNamespace (String.mk nstk) name,
                    txt, kids⟩
            else none
          | none => none
        | _ => none
    | _ => none
  | _ => none

/-! ## Lemmas about the embedding -/

theorem splitOnChar_ne_nil (c : Char) (l : List Char) : splitOnChar c l ≠ [] := by
  cases l with
  | nil => simp [splitOnChar]
  | cons a as =>
    unfold splitOnChar
    split
    · simp
    · split <;> simp

theorem splitOnChar_length_ge_two (c : Char) (l : List Char) (h : c ∈ l) :
    2 ≤ (splitOnChar c l).length := by
  induction l with
  | nil => cases h
  | cons a as ih =>
    rcases hs : splitOnChar c as with _ | ⟨g, gs⟩
    · exact absurd hs (splitOnChar_ne_nil c as)
    · by_cases hac : a = c
      · simp [splitOnChar, hs, hac]
      · rcases List.mem_cons.mp h with h1 | h2
        · exact absurd h1.symm hac
        · have := ih h2
          rw [hs] at this
          simp only [List.length_cons] at this
          simp [splitOnChar, hs, hac]
          omega

theorem mem_brace_addNamespace (ns tag : String) :
    Char.ofNat 125 ∈ (addNamespace ns tag).toList := by
  show Char.ofNat 125 ∈ (("\x7b".data ++ ns.data) ++ "\x7d".data) ++ tag.data
  apply List.mem_append_left
  apply List.mem_append_right
  decide

theorem pySplitBrace_getElem1 (s : String) (h : Char.ofNat 125 ∈ s.toList) :
    ∃ loc, (pySplitBrace s)[1]? = some loc := by
  have h2 := splitOnChar_length_ge_two (Char.ofNat 125) s.toList h
  have hlt : 1 < (pySplitBrace s).length := by
    simp only [pySplitBrace, List.length_map]
    omega
  exact ⟨_, List.getElem?_eq_getElem hlt⟩

/-- The constructor succeeds exactly on elements whose namespace map has
one entry and whose tag contains a closing brace; the resulting wrapper
records the element, the parent and the sole namespace URI. -/
theorem init_ok (element : XElem) (parent : Option XElem)
    (h1 : element.nsvals.length = 1)
    (h2 : Char.ofNat 125 ∈ element.tag.toList) :
    ∃ loc, MetadataElement.init element parent =
      .ok ⟨element, parent, element.nsvals.headD "", loc⟩ := by
  obtain ⟨loc, hl⟩ := pySplitBrace_getElem1 _ h2
  exact ⟨loc, by simp [MetadataElement.init, h1, hl]⟩

/-- `_create_child` always succeeds and produces a fresh element with
the qualified tag and the given text and no children, whose parent
reference is `self._element`. -/
theorem createChild_eq (self : MetadataElement) (tag : String) (text : Option String) :
    ∃ loc, self.createChild tag text =
      .ok ⟨.mk [self.ns] (addNamespace self.ns tag) text [], some self.element,
           self.ns, loc⟩ := by
  have hmem : Char.ofNat 125 ∈ (XElem.mk [self.ns] (addNamespace self.ns tag) text []).tag.toList := by
    simpa [XElem.tag] using mem_brace_addNamespace self.ns tag
  obtain ⟨loc, h⟩ := init_ok (.mk [self.ns] (addNamespace self.ns tag) text [])
    (some self.element) (by simp [XElem.nsvals]) hmem
  refine ⟨loc, ?_⟩
  simp only [XElem.nsvals, List.headD_cons] at h
  simpa [MetadataElement.createChild, MetadataElement.wrapElement] using h

theorem lastIdxWithTag_eq_none_iff (cs : List XElem) (q : String) :
    lastIdxWithTag cs q = none ↔ ∀ c ∈ cs, c.tag ≠ q := by
  have step : lastIdxWithTag cs q = none ↔
      cs.reverse.findIdx? (fun c => c.tag == q) = none := by
    unfold lastIdxWithTag
    cases h : cs.reverse.findIdx? (fun c => c.tag == q) <;> simp [h]
  rw [step, List.findIdx?_eq_none_iff]
  constructor
  · intro h c hc
    simpa using h c (List.mem_reverse.mpr hc)
  · intro h c hc
    simpa using h c (List.mem_reverse.mp hc)

theorem lastIdxWithTag_eq_some (cs : List XElem) (q : String) (j : Nat)
    (hj : j < cs.length) (hq : (cs.get ⟨j, hj⟩).tag = q)
    (hafter : ∀ k (hk : k < cs.length), j < k → (cs.get ⟨k, hk⟩).tag ≠ q) :
    lastIdxWithTag cs q = some j := by
  have hrev : cs.reverse.findIdx? (fun c => c.tag == q) =
      some (cs.length - 1 - j) := by
    rw [List.findIdx?_eq_some_iff_getElem]
    have hlen : cs.length - 1 - j < cs.reverse.length := by
      simp only [List.length_reverse]
      omega
    refine ⟨hlen, ?_, ?_⟩
    · have := List.getElem_reverse (l := cs) (i := cs.length - 1 - j) hlen
      rw [this]
      have hidx : cs.length - 1 - (cs.length - 1 - j) = j := by omega
      simp only [hidx]
      simpa [List.get_eq_getElem] using hq
    · intro m hm
      have hmlt : m < cs.reverse.length := by
        simp only [List.length_reverse]
        omega
      have := List.getElem_reverse (l := cs) (i := m) hmlt
      rw [this]
      have hk : cs.length - 1 - m < cs.length := by omega
      have hjk : j < cs.length - 1 - m := by omega
      have := hafter (cs.length - 1 - m) hk hjk
      simpa [List.get_eq_getElem] using this
  simp only [lastIdxWithTag, hrev]
  congr 1
  omega

/-! ## Claims -/

/-- C1: for every node and tag, `append(tag, text)` creates a new child
element with that (namespace-qualified) tag and text; if the node
already has direct children with the same qualified tag, the new child
is inserted immediately after the last such child, and otherwise it is
appended as the last child overall; the newly created node is returned
(here: as the second component, the first being the node with its
updated child list). -/
theorem C1_append_placement (self : MetadataElement) (tag : String)
    (text : Option String) :
    ∃ updated newchild,
      self.append tag text = .ok (updated, newchild) ∧
      newchild.element = .mk [self.ns] (addNamespace self.ns tag) text [] ∧
      updated.parent = self.parent ∧
      updated.ns = self.ns ∧
      updated.element.tag = self.element.tag ∧
      updated.element.text = self.element.text ∧
      ((∀ c ∈ self.element.children, c.tag ≠ addNamespace self.ns tag) →
        updated.element.children = self.element.children ++ [newchild.element]) ∧
      (∀ j (hj : j < self.element.children.length),
        (self.element.children.get ⟨j, hj⟩).tag = addNamespace self.ns tag →
        (∀ k (hk : k < self.element.children.length), j < k →
          (self.element.children.get ⟨k, hk⟩).tag ≠ addNamespace self.ns tag) →
        updated.element.children =
          self.element.children.take (j + 1) ++
            newchild.element :: self.element.children.drop (j + 1)) := by
  obtain ⟨loc, hcc⟩ := createChild_eq self tag text
  cases hlast : lastIdxWithTag self.element.children (addNamespace self.ns tag) with
  | none =>
    have happ : self.append tag text =
        .ok (⟨self.element.withChildren
                (self.element.children ++
                  [XElem.mk [self.ns] (addNamespace self.ns tag) text []]),
              self.parent, self.ns, self.tag⟩,
             ⟨.mk [self.ns] (addNamespace self.ns tag) text [],
              some self.element, self.ns, loc⟩) := by
      simp [MetadataElement.append, hcc, hlast]
    refine ⟨_, _, happ, rfl, rfl, rfl, ?_, ?_, ?_, ?_⟩
    · simp [XElem.withChildren, XElem.tag]
    · simp [XElem.withChildren, XElem.text]
    · intro _
      simp [XElem.withChildren, XElem.children]
    · intro j hj hq _
      have hnone := (lastIdxWithTag_eq_none_iff _ _).mp hlast
      exact absurd hq (hnone _ (List.get_mem self.element.children j hj))
  | some j0 =>
    have happ : self.append tag text =
        .ok (⟨self.element.withChildren
                (listInsert self.element.children (j0 + 1)
                  (XElem.mk [self.ns] (addNamespace self.ns tag) text [])),
              self.parent, self.ns, self.tag⟩,
             ⟨.mk [self.ns] (addNamespace self.ns tag) text [],
              some self.element, self.ns, loc⟩) := by
      simp [MetadataElement.append, hcc, hlast]
    refine ⟨_, _, happ, rfl, rfl, rfl, ?_, ?_, ?_, ?_⟩
    · simp [XElem.withChildren, XElem.tag]
    · simp [XElem.withChildren, XElem.text]
    · intro hnone
      have := (lastIdxWithTag_eq_none_iff self.element.children
        (addNamespace self.ns tag)).mpr hnone
      rw [this] at hlast
      cases hlast
    · intro j hj hq hafter
      have := lastIdxWithTag_eq_some self.element.children
        (addNamespace self.ns tag) j hj hq hafter
      rw [this] at hlast
      cases hlast
      simp [XElem.withChildren, XElem.children, listInsert]

/-- C1 witness: appending `members`/`CaseOfBeer` to the doctest
`<types>` element places the new child right after `CaseType` and
before `<name>`. -/
theorem C1_append_placement_witness :
    ∃ updated newchild,
      typesNode.append "members" (some "CaseOfBeer") = .ok (updated, newchild) ∧
      updated.element.children =
        [membersEl "CaseReason", membersEl "CaseStatus", membersEl "CaseType",
         newchild.element, nameEl] := by
  obtain ⟨u, n, happ, hel, _, _, _, _, _, hlast⟩ :=
    C1_append_placement typesNode "members" (some "CaseOfBeer")
  refine ⟨u, n, happ, ?_⟩
  have h2 := hlast 2 (by decide) (by decide) (by decide)
  rw [h2]
  rfl

theorem head?_filter_eq_find? {α : Type} (p : α → Bool) (l : List α) :
    (l.filter p).head? = l.find? p := by
  induction l with
  | nil => rfl
  | cons a as ih =>
    by_cases h : p a <;> simp [List.filter_cons, List.find?_cons, h, ih]

theorem find?_eq_get_of_first {α : Type} (p : α → Bool) (l : List α) (j : Nat)
    (hj : j < l.length) (hpj : p (l.get ⟨j, hj⟩) = true)
    (hbefore : ∀ k (hk : k < l.length), k < j → p (l.get ⟨k, hk⟩) = false) :
    l.find? p = some (l.get ⟨j, hj⟩) := by
  induction l generalizing j with
  | nil => cases hj
  | cons a as ih =>
    cases j with
    | zero => simp_all [List.find?_cons]
    | succ j =>
      have ha : p a = false := hbefore 0 (by omega) (by omega)
      have hj' : j < as.length := by simpa using hj
      have := ih j hj' (by simpa using hpj)
        (fun k hk hkj => by
          have := hbefore (k + 1) (by simpa using Nat.succ_lt_succ hk)
            (Nat.succ_lt_succ hkj)
          simpa using this)
      simp [List.find?_cons, ha]
      simpa using this

theorem init_ok_of_wrappable (element : XElem) (parent : Option XElem)
    (h : wrappable element) :
    ∃ loc, MetadataElement.init element parent =
      .ok ⟨element, parent, element.nsvals.headD "", loc⟩ :=
  init_ok element parent h.1 h.2

/-- C2: for every node with a parent and every in-range integer `i`,
`node[i]` returns (wraps) the `i`-th element, in document order, among
the direct children of the node's parent that share the node's own
qualified tag; the result element is independent of the node's own
position among mixed-tag siblings: any other node with the same parent
and the same tag yields the same element. -/
theorem C2_tag_scoped_indexing (self other : MetadataElement) (p : XElem)
    (i : Nat) (hp : self.parent = some p) (hop : other.parent = some p)
    (htag : other.element.tag = self.element.tag)
    (hi : i < (p.findallTag self.element.tag).length)
    (hw : wrappable ((p.findallTag self.element.tag).get ⟨i, hi⟩)) :
    ∃ m mo, self.getItemInt i = .ok m ∧ other.getItemInt i = .ok mo ∧
      m.element = (p.findallTag self.element.tag).get ⟨i, hi⟩ ∧
      mo.element = m.element := by
  have hidx : pyIndex (p.findallTag self.element.tag) (i : Int) =
      some ((p.findallTag self.element.tag).get ⟨i, hi⟩) := by
    simp [pyIndex, List.getElem?_eq_getElem hi, List.get_eq_getElem]
  obtain ⟨loc, hin⟩ :=
    init_ok_of_wrappable ((p.findallTag self.element.tag).get ⟨i, hi⟩)
      (some self.element) hw
  obtain ⟨loc2, hin2⟩ :=
    init_ok_of_wrappable ((p.findallTag self.element.tag).get ⟨i, hi⟩)
      (some other.element) hw
  refine ⟨⟨(p.findallTag self.element.tag).get ⟨i, hi⟩, some self.element,
            ((p.findallTag self.element.tag).get ⟨i, hi⟩).nsvals.headD "", loc⟩,
          ⟨(p.findallTag self.element.tag).get ⟨i, hi⟩, some other.element,
            ((p.findallTag self.element.tag).get ⟨i, hi⟩).nsvals.headD "", loc2⟩,
          ?_, ?_, rfl, rfl⟩
  · simp only [MetadataElement.getItemInt, hp, hidx, MetadataElement.wrapElement]
    exact hin
  · simp only [MetadataElement.getItemInt, hop, htag, hidx,
      MetadataElement.wrapElement]
    exact hin2

/-- C2 witness: with three `<members>` siblings under `<types>`,
indexing `[1]` from the first sibling and from the third sibling both
return the second sibling, `<members>CaseStatus</members>`. -/
theorem C2_tag_scoped_indexing_witness :
    ∃ m mo, (membersNode "CaseReason").getItemInt 1 = .ok m ∧
      (membersNode "CaseType").getItemInt 1 = .ok mo ∧
      m.element = membersEl "CaseStatus" ∧ mo.element = m.element := by
  obtain ⟨m, mo, h1, h2, h3, h4⟩ :=
    C2_tag_scoped_indexing (membersNode "CaseReason") (membersNode "CaseType")
      typesEl 1 rfl rfl rfl (by decide) (by decide)
  exact ⟨m, mo, h1, h2, by rw [h3]; rfl, h4⟩

/-- C10 (implicit): integer indexing is only defined for nodes carrying
a parent reference: roots produced by `parse`/`fromstring` carry none,
and on any node whose parent reference is `None`, `node[i]` fails (the
`AttributeError` of `None.findall`) instead of treating the node as a
one-element sibling sequence. -/
theorem C10_indexing_requires_parent :
    (∀ e m, MetadataElement.initRoot e = .ok m → m.parent = none) ∧
    (∀ (self : MetadataElement) (i : Int), self.parent = none →
      self.getItemInt i = .error .NoneTypeError) := by
  constructor
  · intro e m h
    unfold MetadataElement.initRoot MetadataElement.init at h
    split at h
    · split at h
      · cases h; rfl
      · cases h
    · cases h
  · intro self i h
    simp [MetadataElement.getItemInt, h]

/-- C10 witness: the doctest root has no parent reference and integer
indexing on it fails. -/
theorem C10_indexing_requires_parent_witness :
    packageNode.parent = none ∧
    packageNode.getItemInt 0 = .error .NoneTypeError :=
  ⟨C10_indexing_requires_parent.1 packageEl packageNode rfl,
   C10_indexing_requires_parent.2 packageNode 0 rfl⟩

/-- C4: construction fails with the `ParseError` kind whenever the
element's declared namespace mapping contains more than one distinct
namespace URI, and every successfully constructed node's element has
exactly one distinct namespace URI. -/
theorem C4_single_namespace_invariant (element : XElem) (parent : Option XElem) :
    (1 < element.nsvals.dedup.length →
      MetadataElement.init element parent =
        .error (.ParseError "Only one namespace allowed")) ∧
    (∀ m, MetadataElement.init element parent = .ok m →
      m.element.nsvals.dedup.length = 1) := by
  constructor
  · intro h
    have hle : element.nsvals.dedup.length ≤ element.nsvals.length :=
      (List.dedup_sublist element.nsvals).length_le
    have hne : ¬ element.nsvals.length = 1 := by omega
    simp [MetadataElement.init, hne]
  · intro m h
    unfold MetadataElement.init at h
    split at h
    case isTrue h1 =>
      split at h
      · cases h
        obtain ⟨x, hx⟩ := List.length_eq_one.mp h1
        simp [hx]
      · cases h
    case isFalse => cases h

/-- C4 witness: an element declaring the two distinct namespace URIs
`u` and `v` is rejected with the `ParseError` kind, and the doctest root
(one namespace) is accepted with exactly one distinct URI. -/
theorem C4_single_namespace_invariant_witness :
    (1 < twoNsEl.nsvals.dedup.length ∧
      MetadataElement.init twoNsEl none =
        .error (.ParseError "Only one namespace allowed")) ∧
    (MetadataElement.init packageEl none = .ok packageNode ∧
      packageNode.element.nsvals.dedup.length = 1) :=
  ⟨⟨by decide, (C4_single_namespace_invariant twoNsEl none).1 (by decide)⟩,
   ⟨rfl, (C4_single_namespace_invariant packageEl none).2 packageNode rfl⟩⟩

/-- C9 (implicit): construction also fails when the element declares no
namespace at all — the constructor demands exactly one namespace-map
entry, so a well-formed namespace-free document is rejected, not only
documents with more than one namespace. -/
theorem C9_namespace_free_rejected (element : XElem) (parent : Option XElem)
    (h : element.nsvals = []) :
    MetadataElement.init element parent =
      .error (.ParseError "Only one namespace allowed") := by
  simp [MetadataElement.init, h]

/-- C9 witness: a namespace-free `<Package>` element is rejected at
construction. -/
theorem C9_namespace_free_rejected_witness :
    noNsEl.nsvals = [] ∧
    MetadataElement.init noNsEl none =
      .error (.ParseError "Only one namespace allowed") :=
  ⟨rfl, C9_namespace_free_rejected noNsEl none rfl⟩

/-- C3: reading `text` on a node with at least one element child
resolves the direct child literally named "text" through the ordinary
child-lookup rule (so it fails with the `ChildNotFound` kind when no
such child exists), while reading it on a childless node returns the
element's own textual content; writing `text` always sets the node's own
textual content directly, leaving tag, namespace, children and parent
untouched. -/
theorem C3_text_property (self : MetadataElement) :
    (self.element.children ≠ [] →
      self.textGet = (self.getChild "text").map TextValue.node ∧
      ((∀ c ∈ self.element.children, c.tag ≠ addNamespace self.ns "text") →
        self.textGet = .error (.ChildNotFound "text" self.tag))) ∧
    (self.element.children = [] → self.textGet = .ok (.str self.element.text)) ∧
    (∀ t : Option String,
      (self.textSet t).element.text = t ∧
      (self.textSet t).element.children = self.element.children ∧
      (self.textSet t).element.tag = self.element.tag ∧
      (self.textSet t).element.nsvals = self.element.nsvals ∧
      (self.textSet t).parent = self.parent) := by
  refine ⟨?_, ?_, ?_⟩
  · intro h
    have hlen : self.element.children.length ≠ 0 := by
      simpa [List.length_eq_zero] using h
    constructor
    · simp [MetadataElement.textGet, hlen]
    · intro hnone
      have hfind : self.element.findTag (addNamespace self.ns "text") = none := by
        simp only [XElem.findTag, List.find?_eq_none]
        intro c hc
        simpa using hnone c hc
      simp [MetadataElement.textGet, hlen, MetadataElement.getChild, hfind,
        Except.map]
  · intro h
    have hlen : self.element.children.length = 0 := by simp [h]
    simp [MetadataElement.textGet, hlen]
  · intro t
    simp [MetadataElement.textSet, XElem.withText, XElem.text, XElem.children,
      XElem.tag, XElem.nsvals]

/-- C3 witness: `<types>` (which has children but none named "text")
fails with `ChildNotFound`; the childless `<version>` leaf returns its
own text; writing text on `<types>` sets its own text while keeping the
children. -/
theorem C3_text_property_witness :
    typesNode.textGet = .error (.ChildNotFound "text" "types") ∧
    versionNode.textGet = .ok (.str (some "46.0")) ∧
    ((typesNode.textSet (some "X")).element.text = some "X" ∧
      (typesNode.textSet (some "X")).element.children = typesEl.children) := by
  refine ⟨((C3_text_property typesNode).1 (by decide)).2 (by decide), ?_, ?_, ?_⟩
  · exact (C3_text_property versionNode).2.1 rfl
  · exact ((C3_text_property typesNode).2.2 (some "X")).1
  · exact ((C3_text_property typesNode).2.2 (some "X")).2.1

theorem indexOfChild_eq_none_iff (e x : XElem) :
    e.indexOfChild x = none ↔ x ∉ e.children := by
  rw [XElem.indexOfChild, List.findIdx?_eq_none_iff]
  constructor
  · intro h hmem
    simpa using h x hmem
  · intro h c hc
    simp only [beq_eq_false_iff_ne, ne_eq]
    intro he
    exact h (he ▸ hc)

theorem indexOfChild_eq_some_of_first (e x : XElem) (j : Nat)
    (hj : j < e.children.length) (hx : e.children.get ⟨j, hj⟩ = x)
    (hbefore : ∀ k (hk : k < e.children.length), k < j →
      e.children.get ⟨k, hk⟩ ≠ x) :
    e.indexOfChild x = some j := by
  rw [XElem.indexOfChild, List.findIdx?_eq_some_iff_getElem]
  refine ⟨hj, ?_, ?_⟩
  · simpa [List.get_eq_getElem] using hx
  · intro k hkj
    have hk : k < e.children.length := Nat.lt_trans hkj hj
    have := hbefore k hk hkj
    simpa [List.get_eq_getElem] using this

/-- C5: named/attribute-style child access returns the first direct
child element whose (namespace-qualified) tag matches the requested
name, and fails with the `ChildNotFound` kind exactly when no direct
child has that tag; the result is always a direct child, never a deeper
descendant. -/
theorem C5_named_child_access (self : MetadataElement) (name : String) :
    ((∀ c ∈ self.element.children, c.tag ≠ addNamespace self.ns name) →
      self.getChild name = .error (.ChildNotFound name self.tag)) ∧
    (∀ j (hj : j < self.element.children.length),
      wrappable (self.element.children.get ⟨j, hj⟩) →
      (self.element.children.get ⟨j, hj⟩).tag = addNamespace self.ns name →
      (∀ k (hk : k < self.element.children.length), k < j →
        (self.element.children.get ⟨k, hk⟩).tag ≠ addNamespace self.ns name) →
      ∃ m, self.getChild name = .ok m ∧
        m.element = self.element.children.get ⟨j, hj⟩ ∧
        m.parent = some self.element) := by
  constructor
  · intro hnone
    have hfind : self.element.findTag (addNamespace self.ns name) = none := by
      simp only [XElem.findTag, List.find?_eq_none]
      intro c hc
      simpa using hnone c hc
    simp [MetadataElement.getChild, hfind]
  · intro j hj hw hq hbefore
    have hfind : self.element.findTag (addNamespace self.ns name) =
        some (self.element.children.get ⟨j, hj⟩) := by
      rw [XElem.findTag]
      apply find?_eq_get_of_first
      · simpa using hq
      · intro k hk hkj
        simpa using hbefore k hk hkj
    obtain ⟨loc, hin⟩ :=
      init_ok_of_wrappable (self.element.children.get ⟨j, hj⟩)
        (some self.element) hw
    refine ⟨⟨self.element.children.get ⟨j, hj⟩, some self.element,
             (self.element.children.get ⟨j, hj⟩).nsvals.headD "", loc⟩,
            ?_, rfl, rfl⟩
    simp only [MetadataElement.getChild, hfind, MetadataElement.wrapElement]
    exact hin

/-- C5 witness: on the doctest `<types>` element, the child named "name"
is found (it is the fourth child, the three `<members>` coming first),
and a request for an absent name fails with `ChildNotFound`. -/
theorem C5_named_child_access_witness :
    typesNode.getChild "bogus" = .error (.ChildNotFound "bogus" "types") ∧
    ∃ m, typesNode.getChild "name" = .ok m ∧ m.element = nameEl ∧
      m.parent = some typesEl := by
  constructor
  · exact (C5_named_child_access typesNode "bogus").1 (by decide)
  · obtain ⟨m, h1, h2, h3⟩ :=
      (C5_named_child_access typesNode "name").2 3 (by decide) (by decide)
        (by decide) (by decide)
    exact ⟨m, h1, by rw [h2]; rfl, h3⟩

/-- C6 counterexample: the claim "whenever a text argument is given the
returned child's own text equals that argument" fails at the concrete
input `find("members", "")` on the doctest `<types>` element: the text
argument `""` is given, no direct child has text `""`, so the claim
demands the absent-value sentinel — but the code returns the first
`<members>` child (whose text is "CaseReason"), because `_findall`'s
`matches` tests Python truthiness (`if text:`) and an empty string
disables the filter. -/
theorem C6_counterexample :
    typesNode.find "members" (some "") =
      .ok (some ⟨membersEl "CaseReason", some typesEl, "u", "members"⟩) ∧
    (membersEl "CaseReason").text ≠ some "" := by
  exact ⟨rfl, by decide⟩

/-- C6 (amended): `find(tag, text)` returns the first direct child whose
qualified tag matches and — whenever a NON-EMPTY text argument is given
— whose own text equals that argument; when the text argument is absent
(`None`) or the empty string, the text filter is disabled (Python
truthiness); when no direct child matches it returns the absent-value
sentinel `None` rather than failing. -/
theorem C6_find_first_match (self : MetadataElement) (tag : String)
    (text : Option String) :
    (∀ c, matchesText none c = true) ∧
    (∀ c, matchesText (some "") c = true) ∧
    (∀ (c : XElem) (t : String), t ≠ "" →
      matchesText (some t) c = (c.text == some t)) ∧
    ((∀ c ∈ self.element.children,
        ¬(c.tag = addNamespace self.ns tag ∧ matchesText text c = true)) →
      self.find tag text = .ok none) ∧
    (∀ j (hj : j < self.element.children.length),
      wrappable (self.element.children.get ⟨j, hj⟩) →
      (self.element.children.get ⟨j, hj⟩).tag = addNamespace self.ns tag →
      matchesText text (self.element.children.get ⟨j, hj⟩) = true →
      (∀ k (hk : k < self.element.children.length), k < j →
        ¬((self.element.children.get ⟨k, hk⟩).tag = addNamespace self.ns tag ∧
          matchesText text (self.element.children.get ⟨k, hk⟩) = true)) →
      ∃ m, self.find tag text = .ok (some m) ∧
        m.element = self.element.children.get ⟨j, hj⟩ ∧
        m.parent = some self.element) := by
  refine ⟨fun c => rfl, fun c => rfl, ?_, ?_, ?_⟩
  · intro c t ht
    simp [matchesText, ht]
  · intro hnone
    have hfilter : self.element.children.filter
        (fun c => c.tag == addNamespace self.ns tag && matchesText text c) = [] := by
      rw [List.filter_eq_nil_iff]
      intro c hc
      have := hnone c hc
      simp only [Bool.and_eq_true, beq_iff_eq]
      tauto
    simp [MetadataElement.find, hfilter]
  · intro j hj hw hq hm hbefore
    have hhead : (self.element.children.filter
        (fun c => c.tag == addNamespace self.ns tag && matchesText text c)).head? =
        some (self.element.children.get ⟨j, hj⟩) := by
      rw [head?_filter_eq_find?]
      apply find?_eq_get_of_first
      · simp only [Bool.and_eq_true, beq_iff_eq]
        exact ⟨hq, hm⟩
      · intro k hk hkj
        have hnk := hbefore k hk hkj
        rw [Bool.eq_false_iff]
        simp only [ne_eq, Bool.and_eq_true, beq_iff_eq]
        exact hnk
    obtain ⟨loc, hin⟩ :=
      init_ok_of_wrappable (self.element.children.get ⟨j, hj⟩)
        (some self.element) hw
    refine ⟨⟨self.element.children.get ⟨j, hj⟩, some self.element,
             (self.element.children.get ⟨j, hj⟩).nsvals.headD "", loc⟩,
            ?_, rfl, rfl⟩
    simp only [MetadataElement.find, hhead, MetadataElement.wrapElement, hin,
      Except.map]

/-- C6 witness (for the amended claim): `find("members", "CaseStatus")`
returns the second `<members>` child; `find("members", "zzz")` returns
the sentinel; the filter equations at non-empty text hold. -/
theorem C6_find_first_match_witness :
    (∃ m, typesNode.find "members" (some "CaseStatus") = .ok (some m) ∧
      m.element = membersEl "CaseStatus") ∧
    typesNode.find "members" (some "zzz") = .ok none ∧
    matchesText (some "CaseStatus") (membersEl "CaseReason") = false := by
  refine ⟨?_, ?_, ?_⟩
  · obtain ⟨m, h1, h2, _⟩ :=
      (C6_find_first_match typesNode "members" (some "CaseStatus")).2.2.2.2
        1 (by decide) (by decide) (by decide) (by decide) (by decide)
    exact ⟨m, h1, by rw [h2]; rfl⟩
  · exact (C6_find_first_match typesNode "members" (some "zzz")).2.2.2.1 (by decide)
  · have := (C6_find_first_match typesNode "members" (some "CaseStatus")).2.2.1
      (membersEl "CaseReason") "CaseStatus" (by decide)
    rw [this]
    decide

/-- C7: `insertBefore`/`insertAfter` insert a newly created node at the
literal position immediately before/after `existingChild` among this
node's children, and `remove` detaches the child at that position; all
three fail with the `NotAChild` lookup failure when the referenced
element is not a direct child of this node. -/
theorem C7_positional_ops (self old : MetadataElement) (tag : String)
    (text : Option String) :
    (old.element ∉ self.element.children →
      self.insertBefore old tag text = .error .NotAChild ∧
      self.insertAfter old tag text = .error .NotAChild ∧
      self.remove old = .error .NotAChild) ∧
    (∀ j (hj : j < self.element.children.length),
      self.element.children.get ⟨j, hj⟩ = old.element →
      (∀ k (hk : k < self.element.children.length), k < j →
        self.element.children.get ⟨k, hk⟩ ≠ old.element) →
      (∃ u n, self.insertBefore old tag text = .ok (u, n) ∧
        n.element = .mk [self.ns] (addNamespace self.ns tag) text [] ∧
        u.element.children =
          self.element.children.take j ++
            n.element :: self.element.children.drop j) ∧
      (∃ u n, self.insertAfter old tag text = .ok (u, n) ∧
        n.element = .mk [self.ns] (addNamespace self.ns tag) text [] ∧
        u.element.children =
          self.element.children.take (j + 1) ++
            n.element :: self.element.children.drop (j + 1)) ∧
      self.remove old =
        .ok ⟨self.element.withChildren (self.element.children.eraseIdx j),
             self.parent, self.ns, self.tag⟩) := by
  constructor
  · intro hnm
    have hidx : self.element.indexOfChild old.element = none :=
      (indexOfChild_eq_none_iff self.element old.element).mpr hnm
    refine ⟨?_, ?_, ?_⟩
    · simp [MetadataElement.insertBefore, hidx]
    · simp [MetadataElement.insertAfter, hidx]
    · simp [MetadataElement.remove, hidx]
  · intro j hj hx hbefore
    have hidx : self.element.indexOfChild old.element = some j :=
      indexOfChild_eq_some_of_first self.element old.element j hj hx hbefore
    obtain ⟨loc, hcc⟩ := createChild_eq self tag text
    refine ⟨?_, ?_, ?_⟩
    · refine ⟨⟨self.element.withChildren
          (listInsert self.element.children j
            (XElem.mk [self.ns] (addNamespace self.ns tag) text [])),
          self.parent, self.ns, self.tag⟩,
        ⟨.mk [self.ns] (addNamespace self.ns tag) text [],
          some self.element, self.ns, loc⟩, ?_, rfl, ?_⟩
      · simp [MetadataElement.insertBefore, hidx, MetadataElement.insert, hcc]
      · simp [XElem.withChildren, XElem.children, listInsert]
    · refine ⟨⟨self.element.withChildren
          (listInsert self.element.children (j + 1)
            (XElem.mk [self.ns] (addNamespace self.ns tag) text [])),
          self.parent, self.ns, self.tag⟩,
        ⟨.mk [self.ns] (addNamespace self.ns tag) text [],
          some self.element, self.ns, loc⟩, ?_, rfl, ?_⟩
      · simp [MetadataElement.insertAfter, hidx, MetadataElement.insert, hcc]
      · simp [XElem.withChildren, XElem.children, listInsert]
    · simp [MetadataElement.remove, hidx]

/-- C7 witness: with `<members>CaseStatus</members>` (position 1 under
the doctest `<types>`), `insertBefore`/`insertAfter` place the new node
at positions 1 and 2 respectively and `remove` deletes position 1; with
the `<version>` element (not a child of `<types>`), all three operations
fail with `NotAChild`. -/
theorem C7_positional_ops_witness :
    (typesNode.insertBefore versionNode "members" (some "X") =
        .error .NotAChild ∧
      typesNode.insertAfter versionNode "members" (some "X") =
        .error .NotAChild ∧
      typesNode.remove versionNode = .error .NotAChild) ∧
    (∃ u n, typesNode.insertBefore (membersNode "CaseStatus") "members"
        (some "X") = .ok (u, n) ∧
      u.element.children = [membersEl "CaseReason", n.element,
        membersEl "CaseStatus", membersEl "CaseType", nameEl]) ∧
    (∃ u n, typesNode.insertAfter (membersNode "CaseStatus") "members"
        (some "X") = .ok (u, n) ∧
      u.element.children = [membersEl "CaseReason", membersEl "CaseStatus",
        n.element, membersEl "CaseType", nameEl]) ∧
    typesNode.remove (membersNode "CaseStatus") =
      .ok ⟨typesEl.withChildren
            [membersEl "CaseReason", membersEl "CaseType", nameEl],
           none, "u", "types"⟩ := by
  refine ⟨(C7_positional_ops typesNode versionNode "members" (some "X")).1
      (by decide), ?_, ?_, ?_⟩
  · obtain ⟨⟨u, n, h1, _, h3⟩, _, _⟩ :=
      (C7_positional_ops typesNode (membersNode "CaseStatus") "members"
        (some "X")).2 1 (by decide) (by decide) (by decide)
    exact ⟨u, n, h1, by rw [h3]; rfl⟩
  · obtain ⟨_, ⟨u, n, h1, _, h3⟩, _⟩ :=
      (C7_positional_ops typesNode (membersNode "CaseStatus") "members"
        (some "X")).2 1 (by decide) (by decide) (by decide)
    exact ⟨u, n, h1, by rw [h3]; rfl⟩
  · have := ((C7_positional_ops typesNode (membersNode "CaseStatus") "members"
        (some "X")).2 1 (by decide) (by decide) (by decide)).2.2
    rw [this]
    rfl

theorem string_mk_toList (s : String) : String.mk s.toList = s := rfl

theorem toList_ne_nil_of_ne_empty (s : String) (h : ¬ s = "") : s.toList ≠ [] := by
  intro hl
  exact h (show s = "" from congrArg String.mk hl)

theorem takeRun_exact (p : Char → Bool) (xs : List Char) (d : Char)
    (ds : List Char) (hxs : ∀ c ∈ xs, p c = true) (hd : p d = false) :
    takeRun p (xs ++ d :: ds) = (xs, d :: ds) := by
  induction xs with
  | nil => simp [takeRun, hd]
  | cons a as ih =>
    have ha : p a = true := hxs a (by simp)
    have ih2 := ih (fun c hc => hxs c (by simp [hc]))
    simp [takeRun, ha, ih2]

theorem skipWs_append_ws (ws cs : List Char) (h : ∀ c ∈ ws, wsChar c = true) :
    skipWs (ws ++ cs) = skipWs cs := by
  induction ws with
  | nil => rfl
  | cons a as ih =>
    have ha : wsChar a = true := h a (by simp)
    simp only [skipWs, List.cons_append, List.dropWhile_cons_of_pos ha]
    exact ih (fun c hc => h c (by simp [hc]))

theorem skipWs_cons_neg (c : Char) (cs : List Char) (h : wsChar c = false) :
    skipWs (c :: cs) = c :: cs := by
  have hh : ¬ wsChar c = true := by simp [h]
  simp only [skipWs, List.dropWhile_cons_of_neg hh]

theorem nameChar_not_special (c : Char) (h : nameChar c = true) :
    c ≠ '>' ∧ c ≠ '/' ∧ c ≠ '<' ∧ wsChar c = false := by
  refine ⟨?_, ?_, ?_, ?_⟩
  · intro he; subst he; revert h; decide
  · intro he; subst he; revert h; decide
  · intro he; subst he; revert h; decide
  · cases hw : wsChar c
    · rfl
    · exfalso
      have : c = ' ' ∨ c = '\n' := by
        simpa [wsChar] using hw
      rcases this with he | he <;> (subst he; revert h; decide)

theorem textChar_not_special (c : Char) (h : textChar c = true) :
    c ≠ '<' ∧ wsChar c = false := by
  constructor
  · intro he; subst he; revert h; decide
  · cases hw : wsChar c
    · rfl
    · exfalso
      have : c = ' ' ∨ c = '\n' := by
        simpa [wsChar] using hw
      rcases this with he | he <;> (subst he; revert h; decide)

theorem padChars_ws (d : Nat) : ∀ c ∈ padChars d, wsChar c = true := by
  intro c hc
  have : c = ' ' := List.eq_of_mem_replicate hc
  subst this
  decide

theorem parseNameTok_exact (n : String) (hn : goodName n = true) (d : Char)
    (hd : nameChar d = false) (rest : List Char) :
    parseNameTok (n.toList ++ d :: rest) = some (n, d :: rest) := by
  have hchars : ∀ c ∈ n.toList, nameChar c = true := by
    have := (Bool.and_eq_true _ _).mp hn
    simpa [List.all_eq_true] using this.2
  have hne : n.toList ≠ [] := by
    apply toList_ne_nil_of_ne_empty
    have := (Bool.and_eq_true _ _).mp hn
    simpa using this.1
  have hrun := takeRun_exact nameChar n.toList d rest hchars hd
  cases htl : n.toList with
  | nil => exact absurd htl hne
  | cons a as =>
    rw [htl] at hrun
    have hmk : String.mk (a :: as) = n := htl ▸ string_mk_toList n
    simp only [List.cons_append] at hrun
    simp only [parseNameTok, htl, List.cons_append, hrun, hmk]

theorem parseTextTok_exact (t : String) (ht : goodText t = true) (d : Char)
    (hd : textChar d = false) (rest : List Char) :
    parseTextTok (t.toList ++ d :: rest) = some (t, d :: rest) := by
  have hchars : ∀ c ∈ t.toList, textChar c = true := by
    have := (Bool.and_eq_true _ _).mp ht
    simpa [List.all_eq_true] using this.2
  have hne : t.toList ≠ [] := by
    apply toList_ne_nil_of_ne_empty
    have := (Bool.and_eq_true _ _).mp ht
    simpa using this.1
  have hrun := takeRun_exact textChar t.toList d rest hchars hd
  cases htl : t.toList with
  | nil => exact absurd htl hne
  | cons a as =>
    rw [htl] at hrun
    have hmk : String.mk (a :: as) = t := htl ▸ string_mk_toList t
    simp only [List.cons_append] at hrun
    simp only [parseTextTok, htl, List.cons_append, hrun, hmk]

theorem parseClose_exact (n : String) (hn : goodName n = true)
    (rest : List Char) :
    parseClose n ('<' :: '/' :: (n.toList ++ '>' :: rest)) = some rest := by
  have hname := parseNameTok_exact n hn '>' (by decide) rest
  rw [show n.toList = n.data from rfl] at hname
  simp [parseClose, hname]

theorem sizeE_ge_two (e : XElem) : 2 ≤ sizeE e := by
  cases e with
  | mk n t x c => simp [sizeE]

theorem serBody_eq (d : Nat) (txt : Option String) (kids : List XElem) :
    (match kids with
     | [] => ((txt.getD "").toList : List Char)
     | _ :: _ => '\n' :: serKids (d + 1) kids ++ padChars d) =
      serBody d txt kids := by
  cases kids <;> simp [serBody]

theorem wfElem_parts (ns : String) (nsv : List String) (tag : String)
    (txt : Option String) (kids : List XElem)
    (h : wfElem ns (.mk nsv tag txt kids) = true) :
    nsv = [ns] ∧ tag = addNamespace ns (localOf tag) ∧
    goodName (localOf tag) = true ∧
    ((kids = [] ∧ (txt = none ∨ ∃ t, txt = some t ∧ goodText t = true)) ∨
     (kids ≠ [] ∧ txt = none ∧ wfList ns kids = true)) := by
  cases kids with
  | nil =>
    cases txt with
    | none =>
      simp only [wfElem, Bool.and_eq_true, beq_iff_eq] at h
      exact ⟨h.1.1.1, h.1.1.2, h.1.2, Or.inl ⟨rfl, Or.inl rfl⟩⟩
    | some t =>
      simp only [wfElem, Bool.and_eq_true, beq_iff_eq] at h
      exact ⟨h.1.1.1, h.1.1.2, h.1.2, Or.inl ⟨rfl, Or.inr ⟨t, rfl, h.2⟩⟩⟩
  | cons k ks =>
    cases txt with
    | none =>
      simp only [wfElem, Bool.and_eq_true, beq_iff_eq] at h
      exact ⟨h.1.1.1, h.1.1.2, h.1.2, Or.inr ⟨by simp, rfl, h.2.2⟩⟩
    | some t =>
      simp only [wfElem, Bool.and_eq_true, beq_iff_eq] at h
      exact absurd h.2.1 (by simp)

theorem goodName_chars (s : String) (h : goodName s = true) :
    ∀ c ∈ s.toList, nameChar c = true := by
  have h2 := (Bool.and_eq_true _ _).mp h
  exact fun c hc => List.all_eq_true.mp h2.2 c hc

theorem goodName_toList_ne_nil (s : String) (h : goodName s = true) :
    s.toList ≠ [] := by
  apply toList_ne_nil_of_ne_empty
  have h2 := (Bool.and_eq_true _ _).mp h
  simpa using h2.1

theorem goodText_chars (s : String) (h : goodText s = true) :
    ∀ c ∈ s.toList, textChar c = true := by
  have h2 := (Bool.and_eq_true _ _).mp h
  exact fun c hc => List.all_eq_true.mp h2.2 c hc

theorem goodText_toList_ne_nil (s : String) (h : goodText s = true) :
    s.toList ≠ [] := by
  apply toList_ne_nil_of_ne_empty
  have h2 := (Bool.and_eq_true _ _).mp h
  simpa using h2.1

theorem serCore_shape (d : Nat) (e : XElem) :
    serCore d e = '<' :: ((localOf e.tag).toList ++ '>' ::
      (serBody d e.text e.children ++
        '<' :: '/' :: ((localOf e.tag).toList ++ ['>']))) := by
  cases e with
  | mk nsv tag txt kids =>
    cases kids <;>
      simp [serCore, serBody, XElem.tag, XElem.text, XElem.children,
        List.append_assoc, List.cons_append]

theorem serCore_head (d : Nat) (e : XElem)
    (h : goodName (localOf e.tag) = true) :
    ∃ a tail, serCore d e = '<' :: a :: tail ∧ nameChar a = true := by
  cases htl : (localOf e.tag).toList with
  | nil => exact absurd htl (goodName_toList_ne_nil _ h)
  | cons a as =>
    refine ⟨a, as ++ '>' :: (serBody d e.text e.children ++
      '<' :: '/' :: ((localOf e.tag).toList ++ ['>'])), ?_, ?_⟩
    · rw [serCore_shape, htl]
      simp [List.cons_append]
    · exact goodName_chars _ h a (by rw [htl]; exact List.mem_cons_self a as)

theorem parse_ser_main (ns : String) (fuel : Nat) :
    (∀ e, wfElem ns e = true → sizeE e ≤ fuel → ∀ d rest,
      parseElem ns fuel (serCore d e ++ rest) = some (e, rest)) ∧
    (∀ ks, wfList ns ks = true → sizeL ks + 1 ≤ fuel → ∀ d ws1 ws2 rest,
      (∀ c ∈ ws1, wsChar c = true) → (∀ c ∈ ws2, wsChar c = true) →
      parseKids ns fuel (ws1 ++ (serKids d ks ++ (ws2 ++ '<' :: '/' :: rest))) =
        some (ks, '<' :: '/' :: rest)) ∧
    (∀ name txt kids, goodName name = true →
      (kids = [] → txt = none ∨ ∃ t, txt = some t ∧ goodText t = true) →
      (kids ≠ [] → txt = none) →
      wfList ns kids = true → sizeL kids + 1 ≤ fuel → ∀ d rest,
      parseAfterOpen ns name fuel
          (serBody d txt kids ++ '<' :: '/' :: (name.toList ++ '>' :: rest)) =
        some (txt, kids, rest)) := by
  induction fuel using Nat.strong_induction_on with
  | _ fuel IH =>
  have hPK : (∀ ks, wfList ns ks = true → sizeL ks + 1 ≤ fuel → ∀ d ws1 ws2 rest,
      (∀ c ∈ ws1, wsChar c = true) → (∀ c ∈ ws2, wsChar c = true) →
      parseKids ns fuel (ws1 ++ (serKids d ks ++ (ws2 ++ '<' :: '/' :: rest))) =
        some (ks, '<' :: '/' :: rest)) := by
    intro ks hwf hsz d ws1 ws2 rest hws1 hws2
    cases fuel with
    | zero => omega
    | succ f =>
      obtain ⟨hEf, hKf, _⟩ := IH f (Nat.lt_succ_self f)
      cases ks with
      | nil =>
        have hker : serKids d ([] : List XElem) = [] := by simp [serKids]
        have hws12 : ∀ c ∈ ws1 ++ ws2, wsChar c = true := by
          intro c hc
          rcases List.mem_append.mp hc with h | h
          exacts [hws1 c h, hws2 c h]
        have hskip : skipWs (ws1 ++ (serKids d ([] : List XElem) ++
            (ws2 ++ '<' :: '/' :: rest))) = '<' :: '/' :: rest := by
          rw [hker, List.nil_append, ← List.append_assoc]
          rw [skipWs_append_ws (ws1 ++ ws2) _ hws12]
          exact skipWs_cons_neg _ _ (by decide)
        simp [parseKids, hskip]
      | cons k ks' =>
        have hwk : wfElem ns k = true ∧ wfList ns ks' = true := by
          have h := hwf
          simp only [wfList, Bool.and_eq_true] at h
          exact h
        have hgn : goodName (localOf k.tag) = true := by
          cases k with
          | mk nsv tag txt kids =>
            exact (wfElem_parts ns nsv tag txt kids hwk.1).2.2.1
        obtain ⟨a, tail, hS, ha⟩ := serCore_head d k hgn
        set R : List Char :=
          '\n' :: (serKids d ks' ++ (ws2 ++ '<' :: '/' :: rest)) with hR
        have hwsp : ∀ c ∈ ws1 ++ padChars d, wsChar c = true := by
          intro c hc
          rcases List.mem_append.mp hc with h | h
          exacts [hws1 c h, padChars_ws d c h]
        have hin : ws1 ++ (serKids d (k :: ks') ++ (ws2 ++ '<' :: '/' :: rest)) =
            (ws1 ++ padChars d) ++ (serCore d k ++ R) := by
          rw [show serKids d (k :: ks') =
              padChars d ++ serCore d k ++ '\n' :: serKids d ks' from by
            simp [serKids]]
          simp [hR, List.append_assoc]
        have hfold : serCore d k ++ R = '<' :: a :: (tail ++ R) := by
          rw [hS]
          simp [List.cons_append]
        have hskip : skipWs (ws1 ++ (serKids d (k :: ks') ++
            (ws2 ++ '<' :: '/' :: rest))) = '<' :: a :: (tail ++ R) := by
          rw [hin, skipWs_append_ws _ _ hwsp, hfold]
          exact skipWs_cons_neg _ _ (by decide)
        have hane : ¬ (a = '/') := (nameChar_not_special a ha).2.1
        have h2 : sizeL (k :: ks') = sizeE k + sizeL ks' := by simp [sizeL]
        have hE : parseElem ns f ('<' :: a :: (tail ++ R)) = some (k, R) := by
          rw [← hfold]
          exact hEf k hwk.1 (by omega) d R
        have hK2 : parseKids ns f R = some (ks', '<' :: '/' :: rest) := by
          have h3 := hKf ks' hwk.2 (by have := sizeE_ge_two k; omega) d ['\n']
            ws2 rest (by intro c hc; simp at hc; subst hc; decide) hws2
          simpa [hR] using h3
        simp [parseKids, hskip, hane, hE, hK2]
  have hPA : (∀ name txt kids, goodName name = true →
      (kids = [] → txt = none ∨ ∃ t, txt = some t ∧ goodText t = true) →
      (kids ≠ [] → txt = none) →
      wfList ns kids = true → sizeL kids + 1 ≤ fuel → ∀ d rest,
      parseAfterOpen ns name fuel
          (serBody d txt kids ++ '<' :: '/' :: (name.toList ++ '>' :: rest)) =
        some (txt, kids, rest)) := by
    intro name txt kids hn hleaf hint hwf hsz d rest
    have hclose := parseClose_exact name hn rest
    have hcloseD : parseClose name ('<' :: '/' :: (name.data ++ '>' :: rest)) =
        some rest := hclose
    cases kids with
    | nil =>
      rcases hleaf rfl with htn | ⟨t, htt, hgt⟩
      · subst htn
        have hbody : serBody d none ([] : List XElem) = [] := by
          simp [serBody]
        rw [hbody, List.nil_append]
        simp [parseAfterOpen, hclose, hcloseD]
      · subst htt
        have hbody : serBody d (some t) ([] : List XElem) = t.toList := by
          simp [serBody]
        rw [hbody]
        cases htl : t.toList with
        | nil => exact absurd htl (goodText_toList_ne_nil t hgt)
        | cons a as =>
          have ha : textChar a = true :=
            goodText_chars t hgt a (by rw [htl]; exact List.mem_cons_self a as)
          have h1 : ¬ (a = '<') := (textChar_not_special a ha).1
          have h2 : wsChar a = false := (textChar_not_special a ha).2
          have htx : parseTextTok (a :: (as ++
              '<' :: '/' :: (name.toList ++ '>' :: rest))) =
              some (t, '<' :: '/' :: (name.toList ++ '>' :: rest)) := by
            have := parseTextTok_exact t hgt '<' (by decide)
              ('/' :: (name.toList ++ '>' :: rest))
            rw [htl] at this
            simpa [List.cons_append] using this
          have htxD : parseTextTok (a :: (as ++
              '<' :: '/' :: (name.data ++ '>' :: rest))) =
              some (t, '<' :: '/' :: (name.data ++ '>' :: rest)) := htx
          have htlD : t.data = a :: as := htl
          simp only [htl, htlD, List.cons_append]
          rw [parseAfterOpen.eq_def]
          simp [h1, h2, htx, htxD, hclose, hcloseD]
    | cons k0 ks0 =>
      have htn : txt = none := hint (by simp)
      subst htn
      have hbody : serBody d none (k0 :: ks0) =
          '\n' :: (serKids (d + 1) (k0 :: ks0) ++ padChars d) := by
        simp [serBody]
      rw [hbody]
      have hkids := hPK (k0 :: ks0) hwf hsz (d + 1) ['\n'] (padChars d)
        (name.toList ++ '>' :: rest)
        (by intro c hc; simp at hc; subst hc; decide) (padChars_ws d)
      have hkids2 : parseKids ns fuel ('\n' :: (serKids (d + 1) (k0 :: ks0) ++
          (padChars d ++ '<' :: '/' :: (name.toList ++ '>' :: rest)))) =
          some (k0 :: ks0, '<' :: '/' :: (name.toList ++ '>' :: rest)) := by
        simpa using hkids
      have hkids2D : parseKids ns fuel ('\n' :: (serKids (d + 1) (k0 :: ks0) ++
          (padChars d ++ '<' :: '/' :: (name.data ++ '>' :: rest)))) =
          some (k0 :: ks0, '<' :: '/' :: (name.data ++ '>' :: rest)) := hkids2
      simp only [List.cons_append, List.append_assoc]
      rw [parseAfterOpen.eq_def]
      simp [show wsChar '\n' = true from by decide, hkids2, hkids2D, hclose,
        hcloseD]
  have hPE : (∀ e, wfElem ns e = true → sizeE e ≤ fuel → ∀ d rest,
      parseElem ns fuel (serCore d e ++ rest) = some (e, rest)) := by
    intro e hwf hsz d rest
    cases fuel with
    | zero => exact absurd hsz (by have := sizeE_ge_two e; omega)
    | succ f =>
      obtain ⟨_, _, hAf⟩ := IH f (Nat.lt_succ_self f)
      cases e with
      | mk nsv tag txt kids =>
        obtain ⟨hnsv, htag, hgn, hbranch⟩ :=
          wfElem_parts ns nsv tag txt kids hwf
        have hlf : (kids = [] → txt = none ∨ ∃ t, txt = some t ∧
            goodText t = true) := by
          intro hk
          rcases hbranch with ⟨_, h⟩ | ⟨hne, _, _⟩
          · exact h
          · exact absurd hk hne
        have hin : (kids ≠ [] → txt = none) := by
          intro hk
          rcases hbranch with ⟨hnil, _⟩ | ⟨_, h, _⟩
          · exact absurd hnil hk
          · exact h
        have hwl : wfList ns kids = true := by
          rcases hbranch with ⟨hnil, _⟩ | ⟨_, _, h⟩
          · subst hnil; simp [wfList]
          · exact h
        have hszk : sizeL kids + 1 ≤ f := by
          have : sizeE (XElem.mk nsv tag txt kids) = sizeL kids + 2 := by
            simp [sizeE]
          omega
        have hA := hAf (localOf tag) txt kids hgn hlf hin hwl hszk d rest
        -- normalize the input of parseElem
        have hshape : serCore d (XElem.mk nsv tag txt kids) ++ rest =
            '<' :: ((localOf tag).toList ++ '>' ::
              (serBody d txt kids ++
                '<' :: '/' :: ((localOf tag).toList ++ '>' :: rest))) := by
          rw [serCore_shape]
          simp [XElem.tag, XElem.text, XElem.children, List.cons_append,
            List.append_assoc]
        rw [hshape]
        have hskip : skipWs ('<' :: ((localOf tag).toList ++ '>' ::
            (serBody d txt kids ++
              '<' :: '/' :: ((localOf tag).toList ++ '>' :: rest)))) =
            '<' :: ((localOf tag).toList ++ '>' ::
            (serBody d txt kids ++
              '<' :: '/' :: ((localOf tag).toList ++ '>' :: rest))) :=
          skipWs_cons_neg _ _ (by decide)
        have hname := parseNameTok_exact (localOf tag) hgn '>' (by decide)
          (serBody d txt kids ++
            '<' :: '/' :: ((localOf tag).toList ++ '>' :: rest))
        have hnameD : parseNameTok ((localOf tag).data ++ '>' ::
            (serBody d txt kids ++
              '<' :: '/' :: ((localOf tag).data ++ '>' :: rest))) =
            some (localOf tag, '>' :: (serBody d txt kids ++
              '<' :: '/' :: ((localOf tag).data ++ '>' :: rest))) := hname
        have hAD : parseAfterOpen ns (localOf tag) f
            (serBody d txt kids ++
              '<' :: '/' :: ((localOf tag).data ++ '>' :: rest)) =
            some (txt, kids, rest) := hA
        simp only [parseElem, hskip]
        simp [hname, hnameD, hA, hAD, ← htag, hnsv]
  exact ⟨hPE, hPK, hPA⟩

theorem goodNs_chars (s : String) (h : goodNs s = true) :
    ∀ c ∈ s.toList, nsChar c = true := by
  have h2 := (Bool.and_eq_true _ _).mp h
  exact fun c hc => List.all_eq_true.mp h2.2 c hc

theorem goodNs_toList_ne_nil (s : String) (h : goodNs s = true) :
    s.toList ≠ [] := by
  apply toList_ne_nil_of_ne_empty
  have h2 := (Bool.and_eq_true _ _).mp h
  simpa using h2.1

theorem parseRoot_ser (ns : String) (e : XElem) (fuel : Nat)
    (hns : goodNs ns = true) (hwf : wfElem ns e = true)
    (hfuel : sizeE e ≤ fuel + 1) :
    parseXmlRoot fuel (serializeXml ns e) = some e := by
  cases e with
  | mk nsv tag txt kids =>
    obtain ⟨hnsv, htag, hgn, hbranch⟩ := wfElem_parts ns nsv tag txt kids hwf
    have hlf : (kids = [] → txt = none ∨ ∃ t, txt = some t ∧
        goodText t = true) := by
      intro hk
      rcases hbranch with ⟨_, h⟩ | ⟨hne, _, _⟩
      · exact h
      · exact absurd hk hne
    have hint : (kids ≠ [] → txt = none) := by
      intro hk
      rcases hbranch with ⟨hnil, _⟩ | ⟨_, h, _⟩
      · exact absurd hnil hk
      · exact h
    have hwl : wfList ns kids = true := by
      rcases hbranch with ⟨hnil, _⟩ | ⟨_, _, h⟩
      · subst hnil; simp [wfList]
      · exact h
    have hszk : sizeL kids + 1 ≤ fuel := by
      have h2 : sizeE (XElem.mk nsv tag txt kids) = sizeL kids + 2 := by
        simp [sizeE]
      omega
    have hA := (parse_ser_main ns fuel).2.2 (localOf tag) txt kids hgn hlf hint
      hwl hszk 0 ['\n']
    -- the serialized document, with accessors reduced
    have hser : serializeXml ns (XElem.mk nsv tag txt kids) =
        '<' :: ((localOf tag).toList ++
          (' ' :: 'x' :: 'm' :: 'l' :: 'n' :: 's' :: '=' :: '"' :: (ns.toList ++
            '"' :: '>' :: (serBody 0 txt kids ++
              '<' :: '/' :: ((localOf tag).toList ++ '>' :: ['\n']))))) := by
      simp [serializeXml, XElem.tag, XElem.text, XElem.children,
        List.cons_append, List.append_assoc]
    obtain ⟨b, bs, hnstl⟩ : ∃ b bs, ns.toList = b :: bs := by
      cases h : ns.toList with
      | nil => exact absurd h (goodNs_toList_ne_nil ns hns)
      | cons b bs => exact ⟨b, bs, rfl⟩
    have hnstlD : ns.data = b :: bs := hnstl
    have hmkns : String.mk (b :: bs) = ns := hnstl ▸ string_mk_toList ns
    have hname := parseNameTok_exact (localOf tag) hgn ' ' (by decide)
      ('x' :: 'm' :: 'l' :: 'n' :: 's' :: '=' :: '"' :: (ns.toList ++
        '"' :: '>' :: (serBody 0 txt kids ++
          '<' :: '/' :: ((localOf tag).toList ++ '>' :: ['\n']))))
    have hnameD : parseNameTok ((localOf tag).data ++
        ' ' :: 'x' :: 'm' :: 'l' :: 'n' :: 's' :: '=' :: '"' :: (ns.data ++
          '"' :: '>' :: (serBody 0 txt kids ++
            '<' :: '/' :: ((localOf tag).data ++ '>' :: ['\n'])))) =
        some (localOf tag,
          ' ' :: 'x' :: 'm' :: 'l' :: 'n' :: 's' :: '=' :: '"' :: (ns.data ++
            '"' :: '>' :: (serBody 0 txt kids ++
              '<' :: '/' :: ((localOf tag).data ++ '>' :: ['\n'])))) := hname
    have hrun : takeRun nsChar (ns.toList ++ '"' :: '>' ::
        (serBody 0 txt kids ++
          '<' :: '/' :: ((localOf tag).toList ++ '>' :: ['\n']))) =
        (ns.toList, '"' :: '>' :: (serBody 0 txt kids ++
          '<' :: '/' :: ((localOf tag).toList ++ '>' :: ['\n']))) :=
      takeRun_exact nsChar ns.toList '"' _ (goodNs_chars ns hns) (by decide)
    have hrunD : takeRun nsChar (ns.data ++ '"' :: '>' ::
        (serBody 0 txt kids ++
          '<' :: '/' :: ((localOf tag).data ++ '>' :: ['\n']))) =
        (ns.data, '"' :: '>' :: (serBody 0 txt kids ++
          '<' :: '/' :: ((localOf tag).data ++ '>' :: ['\n']))) := hrun
    have hA2 : parseAfterOpen ns (localOf tag) fuel
        (serBody 0 txt kids ++
          '<' :: '/' :: ((localOf tag).toList ++ '>' :: ['\n'])) =
        some (txt, kids, ['\n']) := hA
    have hA2D : parseAfterOpen ns (localOf tag) fuel
        (serBody 0 txt kids ++
          '<' :: '/' :: ((localOf tag).data ++ '>' :: ['\n'])) =
        some (txt, kids, ['\n']) := hA
    rw [hser]
    simp only [parseXmlRoot]
    rw [skipWs_cons_neg '<' _ (by decide)]
    simp only [hname, hnameD]
    simp only [hrun, hrunD]
    simp only [hnstl, hnstlD]
    simp only [hmkns, hA2, hA2D]
    simp [skipWs, show wsChar '\n' = true from by decide, ← htag, hnsv]

theorem takeRun_sound (p : Char → Bool) :
    ∀ cs tk r, takeRun p cs = (tk, r) → ∀ c ∈ tk, p c = true := by
  intro cs
  induction cs with
  | nil =>
    intro tk r h
    simp only [takeRun, Prod.mk.injEq] at h
    rw [← h.1]
    intro c hc
    cases hc
  | cons a as ih =>
    intro tk r h
    by_cases hpa : p a
    · simp only [takeRun, if_pos hpa, Prod.mk.injEq] at h
      rw [← h.1]
      intro c hc
      rcases List.mem_cons.mp hc with rfl | hc2
      · exact hpa
      · exact ih _ _ rfl c hc2
    · simp only [takeRun, if_neg hpa, Prod.mk.injEq] at h
      rw [← h.1]
      intro c hc
      cases hc

theorem parseNameTok_sound (cs : List Char) (n : String) (r : List Char)
    (h : parseNameTok cs = some (n, r)) : goodName n = true := by
  unfold parseNameTok at h
  rcases htr : takeRun nameChar cs with ⟨tk, r2⟩
  rw [htr] at h
  cases tk with
  | nil => simp at h
  | cons a as =>
    simp only [Option.some.injEq, Prod.mk.injEq] at h
    have hall := takeRun_sound nameChar cs (a :: as) r2 htr
    rw [← h.1]
    simp only [goodName, Bool.and_eq_true]
    constructor
    · simp [String.mk]
      intro hcon
      exact absurd (congrArg String.data hcon) (by simp)
    · simpa [List.all_eq_true, String.toList] using hall

theorem parseTextTok_sound (cs : List Char) (n : String) (r : List Char)
    (h : parseTextTok cs = some (n, r)) : goodText n = true := by
  unfold parseTextTok at h
  rcases htr : takeRun textChar cs with ⟨tk, r2⟩
  rw [htr] at h
  cases tk with
  | nil => simp at h
  | cons a as =>
    simp only [Option.some.injEq, Prod.mk.injEq] at h
    have hall := takeRun_sound textChar cs (a :: as) r2 htr
    rw [← h.1]
    simp only [goodText, Bool.and_eq_true]
    constructor
    · simp [String.mk]
      intro hcon
      exact absurd (congrArg String.data hcon) (by simp)
    · simpa [List.all_eq_true, String.toList] using hall

theorem splitOnChar_no (c : Char) (xs : List Char)
    (h : ∀ a ∈ xs, ¬ a = c) : splitOnChar c xs = [xs] := by
  induction xs with
  | nil => simp [splitOnChar]
  | cons a as ih =>
    have hih := ih (fun b hb => h b (by simp [hb]))
    simp [splitOnChar, hih, h a (by simp)]

theorem splitOnChar_split (c : Char) (xs ys : List Char)
    (hx : ∀ a ∈ xs, ¬ a = c) (hy : ∀ a ∈ ys, ¬ a = c) :
    splitOnChar c (xs ++ c :: ys) = [xs, ys] := by
  induction xs with
  | nil =>
    simp only [List.nil_append, splitOnChar, splitOnChar_no c ys hy]
    simp
  | cons a as ih =>
    have hih := ih (fun b hb => hx b (by simp [hb]))
    simp [splitOnChar, hih, hx a (by simp)]

theorem nameChar_ne_brace (ch : Char) (h : nameChar ch = true) :
    ¬ ch = Char.ofNat 125 := by
  intro he
  subst he
  revert h
  decide

theorem nsChar_ne_brace (ch : Char) (h : nsChar ch = true) :
    ¬ ch = Char.ofNat 125 := by
  intro he
  subst he
  revert h
  decide

theorem localOf_addNamespace (ns name : String)
    (hns : ∀ ch ∈ ns.toList, ¬ ch = Char.ofNat 125)
    (hname : ∀ ch ∈ name.toList, ¬ ch = Char.ofNat 125) :
    localOf (addNamespace ns name) = name := by
  have hdata : (addNamespace ns name).toList =
      (Char.ofNat 123 :: ns.toList) ++ Char.ofNat 125 :: name.toList := by
    show (("\x7b".data ++ ns.data) ++ "\x7d".data) ++ name.data = _
    rw [show "\x7b".data = [Char.ofNat 123] from by decide,
        show "\x7d".data = [Char.ofNat 125] from by decide]
    simp
  have hx : ∀ a ∈ Char.ofNat 123 :: ns.toList, ¬ a = Char.ofNat 125 := by
    intro a ha
    rcases List.mem_cons.mp ha with rfl | h2
    · decide
    · exact hns a h2
  unfold localOf pySplitBrace
  rw [show (addNamespace ns name).toList = (Char.ofNat 123 :: ns.toList) ++
      Char.ofNat 125 :: name.toList from hdata]
  rw [splitOnChar_split (Char.ofNat 125) _ _ hx hname]
  simp [string_mk_toList]

theorem wfElem_build (ns name : String) (txt : Option String)
    (kids : List XElem) (hname : goodName name = true)
    (hloc : localOf (addNamespace ns name) = name)
    (hwl : wfList ns kids = true)
    (hleaf : kids = [] → txt = none ∨ ∃ t, txt = some t ∧ goodText t = true)
    (hint : kids ≠ [] → txt = none) :
    wfElem ns (.mk [ns] (addNamespace ns name) txt kids) = true := by
  cases kids with
  | nil =>
    rcases hleaf rfl with h | ⟨t, rfl, hgt⟩
    · subst h
      simp [wfElem, hloc, hname]
    · simp [wfElem, hloc, hname, hgt]
  | cons k ks =>
    have htn := hint (by simp)
    subst htn
    simp [wfElem, hloc, hname, hwl]

theorem parse_sound (ns : String)
    (hns : ∀ ch ∈ ns.toList, ¬ ch = Char.ofNat 125) (fuel : Nat) :
    (∀ cs e r, parseElem ns fuel cs = some (e, r) → wfElem ns e = true) ∧
    (∀ cs ks r, parseKids ns fuel cs = some (ks, r) → wfList ns ks = true) ∧
    (∀ name cs txt kids r,
      parseAfterOpen ns name fuel cs = some (txt, kids, r) →
      wfList ns kids = true ∧
      (kids = [] → txt = none ∨ ∃ t, txt = some t ∧ goodText t = true) ∧
      (kids ≠ [] → txt = none)) := by
  induction fuel using Nat.strong_induction_on with
  | _ fuel IH =>
  have hK : (∀ cs ks r, parseKids ns fuel cs = some (ks, r) →
      wfList ns ks = true) := by
    intro cs ks r h
    cases fuel with
    | zero => simp [parseKids] at h
    | succ f =>
      obtain ⟨hEf, hKf, _⟩ := IH f (Nat.lt_succ_self f)
      simp only [parseKids] at h
      rcases hsw : skipWs cs with _ | ⟨c, cs1⟩ <;> rw [hsw] at h
      · simp at h
      · dsimp only at h
        by_cases hc : c = '<'
        · rw [if_pos hc] at h
          cases cs1 with
          | nil => simp at h
          | cons c2 cs2 =>
            dsimp only at h
            by_cases h2 : c2 = '/'
            · rw [if_pos h2] at h
              simp only [Option.some.injEq, Prod.mk.injEq] at h
              rw [← h.1]
              simp [wfList]
            · rw [if_neg h2] at h
              rcases hpe : parseElem ns f (c :: c2 :: cs2) with _ | ⟨e0, r0⟩ <;>
                (rw [hpe] at h; try dsimp only at h)
              · simp at h
              · rcases hpk : parseKids ns f r0 with _ | ⟨es, r2⟩ <;>
                  (rw [hpk] at h; try dsimp only at h)
                · simp at h
                · simp only [Option.some.injEq, Prod.mk.injEq] at h
                  rw [← h.1]
                  simp [wfList, hEf _ _ _ hpe, hKf _ _ _ hpk]
        · rw [if_neg hc] at h
          simp at h
  have hA : (∀ name cs txt kids r,
      parseAfterOpen ns name fuel cs = some (txt, kids, r) →
      wfList ns kids = true ∧
      (kids = [] → txt = none ∨ ∃ t, txt = some t ∧ goodText t = true) ∧
      (kids ≠ [] → txt = none)) := by
    intro name cs txt kids r h
    rw [parseAfterOpen.eq_def] at h
    rcases cs with _ | ⟨c, cs2⟩
    · simp at h
    · simp only at h
      by_cases hc : c = '<'
      · rw [if_pos hc] at h
        cases cs2 with
        | nil => simp at h
        | cons c2 cs3 =>
          dsimp only at h
          by_cases h2 : c2 = '/'
          · rw [if_pos h2] at h
            rcases hpc : parseClose name (c :: c2 :: cs3) with _ | r2 <;>
              (rw [hpc] at h; try dsimp only at h)
            · simp at h
            · simp only [Option.some.injEq, Prod.mk.injEq] at h
              obtain ⟨h1, h2b, h3⟩ := h
              subst h1; subst h2b
              exact ⟨by simp [wfList], fun _ => Or.inl rfl, fun hk => rfl⟩
          · rw [if_neg h2] at h
            simp at h
      · rw [if_neg hc] at h
        by_cases hw : wsChar c = true
        · rw [if_pos hw] at h
          rcases hpk : parseKids ns fuel (c :: cs2) with _ | ⟨ks0, r0⟩ <;>
            (rw [hpk] at h; try dsimp only at h)
          · simp at h
          · rcases hpc : parseClose name r0 with _ | r2 <;> (rw [hpc] at h; try dsimp only at h)
            · simp at h
            · simp only [Option.some.injEq, Prod.mk.injEq] at h
              obtain ⟨h1, h2b, h3⟩ := h
              subst h1; subst h2b
              exact ⟨hK _ _ _ hpk, fun _ => Or.inl rfl, fun _ => rfl⟩
        · rw [if_neg hw] at h
          rcases hpt : parseTextTok (c :: cs2) with _ | ⟨t0, r0⟩ <;>
            (rw [hpt] at h; try dsimp only at h)
          · simp at h
          · rcases hpc : parseClose name r0 with _ | r2 <;> (rw [hpc] at h; try dsimp only at h)
            · simp at h
            · simp only [Option.some.injEq, Prod.mk.injEq] at h
              obtain ⟨h1, h2b, h3⟩ := h
              subst h1; subst h2b
              refine ⟨by simp [wfList], fun _ => Or.inr ⟨t0, rfl, ?_⟩,
                fun hk => absurd rfl hk⟩
              exact parseTextTok_sound _ _ _ hpt
  have hE : (∀ cs e r, parseElem ns fuel cs = some (e, r) →
      wfElem ns e = true) := by
    intro cs e r h
    cases fuel with
    | zero => simp [parseElem] at h
    | succ f =>
      obtain ⟨_, _, hAf⟩ := IH f (Nat.lt_succ_self f)
      simp only [parseElem] at h
      rcases hsw : skipWs cs with _ | ⟨c, cs1⟩ <;> rw [hsw] at h
      · simp at h
      · dsimp only at h
        by_cases hc : c = '<'
        · rw [if_pos hc] at h
          rcases hpn : parseNameTok cs1 with _ | ⟨name, rest1⟩ <;>
            (rw [hpn] at h; try dsimp only at h)
          · simp at h
          · cases rest1 with
            | nil => simp at h
            | cons c2 cs2 =>
              dsimp only at h
              by_cases h2 : c2 = '>'
              · rw [if_pos h2] at h
                rcases hpa : parseAfterOpen ns name f cs2 with
                  _ | ⟨txt0, kids0, rest0⟩ <;> (rw [hpa] at h; try dsimp only at h)
                · simp at h
                · simp only [Option.some.injEq, Prod.mk.injEq] at h
                  obtain ⟨h1, _⟩ := h
                  rw [← h1]
                  obtain ⟨hwl, hleaf, hint⟩ := hAf name cs2 txt0 kids0 rest0 hpa
                  have hgname := parseNameTok_sound cs1 name _ hpn
                  have hnameBr : ∀ ch ∈ name.toList, ¬ ch = Char.ofNat 125 :=
                    fun ch hch =>
                      nameChar_ne_brace ch (goodName_chars name hgname ch hch)
                  have hloc := localOf_addNamespace ns name hns hnameBr
                  exact wfElem_build ns name txt0 kids0 hgname hloc hwl hleaf
                    hint
              · rw [if_neg h2] at h
                simp at h
        · rw [if_neg hc] at h
          simp at h
  exact ⟨hE, hK, hA⟩

theorem parseRoot_sound (fuel : Nat) (cs : List Char) (e : XElem)
    (h : parseXmlRoot fuel cs = some e) :
    ∃ ns, goodNs ns = true ∧ wfElem ns e = true := by
  unfold parseXmlRoot at h
  split at h
  case h_2 => exact absurd h (by simp)
  case h_1 cs1 heq1 =>
    split at h
    case h_2 => exact absurd h (by simp)
    case h_1 name cs3 heq2 =>
      split at h
      case h_1 => exact absurd h (by simp)
      case h_2 nstk cs4 hne heq3 =>
        split at h
        case h_2 => exact absurd h (by simp)
        case h_1 cs5 heq4 =>
          split at h
          case h_2 => exact absurd h (by simp)
          case h_1 txt kids rest heq5 =>
            split at h
            case isFalse => exact absurd h (by simp)
            case isTrue hemp =>
              simp only [Option.some.injEq] at h
              have hnstk_ne : nstk ≠ [] := hne
              have hall : ∀ ch ∈ nstk, nsChar ch = true :=
                takeRun_sound nsChar cs3 nstk _ heq3
              have hgns : goodNs (String.mk nstk) = true := by
                simp only [goodNs, Bool.and_eq_true]
                constructor
                · simp only [Bool.not_eq_true', beq_eq_false_iff_ne, ne_eq]
                  intro hcon
                  exact hnstk_ne (by simpa using congrArg String.data hcon)
                · simpa [List.all_eq_true, String.toList] using hall
              have hbr : ∀ ch ∈ (String.mk nstk).toList,
                  ¬ ch = Char.ofNat 125 := by
                intro ch hch
                exact nsChar_ne_brace ch (hall ch (by simpa [String.toList] using hch))
              have hgname := parseNameTok_sound cs1 name _ heq2
              obtain ⟨hwl, hleaf, hint⟩ :=
                (parse_sound (String.mk nstk) hbr fuel).2.2 name heq4 txt kids
                  rest heq5
              have hnameBr : ∀ ch ∈ name.toList, ¬ ch = Char.ofNat 125 :=
                fun ch hch =>
                  nameChar_ne_brace ch (goodName_chars name hgname ch hch)
              have hloc := localOf_addNamespace (String.mk nstk) name hbr hnameBr
              refine ⟨String.mk nstk, hgns, ?_⟩
              rw [← h]
              exact wfElem_build (String.mk nstk) name txt kids hgname hloc hwl
                hleaf hint

/-- C8: round-trip law of serialization and parsing for the
single-namespace document convention.  Whatever element tree the parser
produces from a document, serializing that tree (with the spec-modelled
four-space-indented serializer that re-declares the namespace as default
on the root) and parsing the output again reproduces the tree exactly —
the insignificant whitespace introduced by the pretty-printer is
normalised away by the parser.  The parser is sound for the modelled
document class (its output is a well-formed single-namespace tree), and
every well-formed tree round-trips. -/
theorem C8_roundtrip :
    (∀ (fuel : Nat) (doc : List Char) (t : XElem),
      parseXmlRoot fuel doc = some t →
      ∃ ns, goodNs ns = true ∧ wfElem ns t = true) ∧
    (∀ (ns : String) (t : XElem) (fuel : Nat), goodNs ns = true →
      wfElem ns t = true → sizeE t ≤ fuel + 1 →
      parseXmlRoot fuel (serializeXml ns t) = some t) := by
  constructor
  · intro fuel doc t h
    exact parseRoot_sound fuel doc t h
  · intro ns t fuel hns hwf hfuel
    exact parseRoot_ser ns t fuel hns hwf hfuel

/-- C8 witness: the doctest `<types>` tree serializes and re-parses to
itself, and the parse of that document is well-formed in its namespace. -/
theorem C8_roundtrip_witness :
    parseXmlRoot 10 (serializeXml "u" typesEl) = some typesEl ∧
    ∃ ns, goodNs ns = true ∧ wfElem ns typesEl = true := by
  have h2 := C8_roundtrip.2 "u" typesEl 10 (by decide) (by decide) (by decide)
  exact ⟨h2, C8_roundtrip.1 10 (serializeXml "u" typesEl) typesEl h2⟩
